import Mathlib

/-!
# Verification of the digin bottom-up digest pipeline

A shallow embedding of the core of the `digin` repository (src/traverser.py,
src/cache.py, src/aggregator.py, src/analyzer.py) together with proofs about
the properties its specification states.

Modelling conventions, fixed once here:

* File-system trees are finite inductive trees (`FTree`).  A directory path is
  the list of directory names relative to the analysis root (the root itself is
  `[]`).  Real `pathlib.Path` values are absolute; nothing in the analysed code
  depends on the absolute prefix, and `parent == root_path.parent` becomes
  "the directory is the root".
* SHA-256 is modelled by the transcript of byte chunks fed to the hasher
  (`hasher.update` calls, in order): two directory states get equal model
  fingerprints exactly when the source feeds identical data to SHA-256.
  Comparing transcripts for equality corresponds to comparing hex digests,
  under the standard assumption that SHA-256 is collision-free.
* The persisted cache artifacts `digest.json` and `.digin_hash` are modelled as
  per-directory slots rather than as ordinary files.  This is licensed by the
  source: `cache.py` (`_should_ignore_for_hash`) excludes exactly these two
  file names from fingerprinting, so they never contribute to a hash.  JSON
  serialization is abstracted to the identity (the digest slot stores the
  parsed value; a corrupt artifact stores no value).  "Unreadable" artifacts
  carry an explicit flag.
* Python `float` arithmetic in the confidence computation is modelled with
  exact rationals; `int()` is truncation toward zero.
* OS-level permission errors during traversal are not modelled (the model file
  system is always listable); cache-artifact read permissions are modelled.
-/

set_option linter.unusedVariables false

namespace Digin

/-! ## Settings (config.py `DigginSettings`, plus the `narrative_enabled`
attribute that `__main__.py` sets on the settings object).

`max_file_size` is carried directly as its byte value
(`get_max_file_size_bytes` is a pure parser of the configured string; no claim
depends on the parse itself). -/

structure Settings where
  ignore_dirs : List String
  ignore_files : List String
  include_extensions : List String
  ignore_hidden : Bool
  maxFileSizeBytes : Nat
  api_provider : String
  cache_enabled : Bool
  narrative_enabled : Bool
  verbose : Bool
deriving Repr, DecidableEq

/-! ## Python `pathlib` name helpers -/

/-- `PurePath.suffix`: the final `.`-extension of a file name, empty when the
only dot is leading or there is no dot (`pathlib`: `name[i:]` for the last
`.` at index `i` with `0 < i < len(name) - 1`). -/
def pySuffix (name : String) : String :=
  let cs := name.data
  let n := cs.length
  match (List.range n).filter (fun i => cs.getD i ' ' = '.') |>.getLast? with
  | none => ""
  | some i => if 0 < i ∧ i < n - 1 then String.mk (cs.drop i) else ""

/-- `str.lower()` restricted to ASCII, as used on extensions. -/
def pyLower (s : String) : String :=
  String.mk (s.data.map (fun c =>
    if 'A' ≤ c ∧ c ≤ 'Z' then Char.ofNat (c.toNat + 32) else c))

/-- Python whitespace characters (the ones `str.split()`/`str.strip()`
see in this code base). -/
def isWs (c : Char) : Bool := c = ' ' ∨ c = '\t' ∨ c = '\n' ∨ c = '\r'

/-- `str.strip()` -/
def pyStrip (s : String) : String :=
  String.mk (((s.data.dropWhile isWs).reverse.dropWhile isWs).reverse)

/-- `str.split()`: split on whitespace runs, no empty pieces. -/
def pySplit (s : String) : List String :=
  let r := s.data.foldl
    (fun (acc : List (List Char) × List Char) c =>
      if isWs c then (if acc.2 ≠ [] then acc.1 ++ [acc.2] else acc.1, [])
      else (acc.1, acc.2 ++ [c]))
    ([], [])
  ((if r.2 ≠ [] then r.1 ++ [r.2] else r.1).map String.mk)

/-- `s[:n]` by characters. -/
def pyTake (s : String) (n : Nat) : String := String.mk (s.data.take n)

/-- `name.startswith(".")` -/
def startsWithDot (name : String) : Bool :=
  match name.data with
  | [] => false
  | c :: _ => c = '.'

/-! ## `fnmatch.fnmatch` (POSIX: no case folding)

Glob matching with `*`, `?` and `[...]` character classes (with `!` negation
and `a-z` ranges).  The ignore patterns the claims exercise are literal names,
for which the matcher reduces to string equality. -/

/-- Match one character against the body of a `[...]` class. -/
def classMatch : List Char → Char → Bool
  | [], _ => false
  | a :: '-' :: b :: rest, c =>
      (a ≤ c ∧ c ≤ b) || classMatch rest c
  | a :: rest, c => a = c || classMatch rest c

/-- Split a class body at the closing `]`; returns (body, rest-after-`]`). -/
def splitClass : List Char → Option (List Char × List Char)
  | [] => none
  | ']' :: rest => some ([], rest)
  | c :: rest => (splitClass rest).map (fun p => (c :: p.1, p.2))

theorem splitClass_rest_length_lt :
    ∀ cs body rest, splitClass cs = some (body, rest) → rest.length < cs.length := by
  intro cs
  induction cs with
  | nil => intro b r h; simp [splitClass] at h
  | cons c cs ih =>
    intro b r h
    rw [splitClass.eq_def] at h
    split at h
    · exact absurd h (by simp)
    · rename_i heq
      simp at h heq
      obtain ⟨h1, h2⟩ := h
      obtain ⟨hc, hcs⟩ := heq
      subst h2; subst hcs
      simp
    · rename_i c' rest' heq
      simp at heq
      obtain ⟨hc, hcs⟩ := heq
      subst hcs
      cases hr : splitClass cs with
      | none => rw [hr] at h; simp at h
      | some p =>
        rw [hr] at h
        simp at h
        have := ih p.1 p.2 hr
        have h2 : p.2.length = r.length := by rw [h.2]
        simp
        omega

/-- `fnmatch` core on character lists.  The structural fuel
(`|pattern| + |string| + 1` suffices: every recursive call shrinks that sum)
keeps the function kernel-reducible. -/
def globMatchF : Nat → List Char → List Char → Bool
  | 0, _, _ => false
  | _ + 1, [], [] => true
  | _ + 1, [], _ :: _ => false
  | fuel + 1, '*' :: ps, cs =>
      globMatchF fuel ps cs ||
        (match cs with
         | [] => false
         | _ :: cs' => globMatchF fuel ('*' :: ps) cs')
  | fuel + 1, '?' :: ps, cs =>
      (match cs with
       | [] => false
       | _ :: cs' => globMatchF fuel ps cs')
  | fuel + 1, '[' :: ps, cs =>
      (match splitClass ps with
       | none =>
         -- no closing bracket: `[` is literal
         (match cs with
          | [] => false
          | c :: cs' => ('[' = c) && globMatchF fuel ps cs')
       | some (body, rest) =>
         (match cs with
          | [] => false
          | c :: cs' =>
            (match body with
             | '!' :: negBody => !(classMatch negBody c)
             | _ => classMatch body c) && globMatchF fuel rest cs'))
  | fuel + 1, p :: ps, cs =>
      (match cs with
       | [] => false
       | c :: cs' => (p = c) && globMatchF fuel ps cs')

/-- `fnmatch.fnmatch(name, pattern)` -/
def fnmatch (name pattern : String) : Bool :=
  globMatchF (pattern.data.length + name.data.length + 1) pattern.data name.data

/-! ## Traverser ignore predicates (traverser.py 214-270) -/

/-- `DirectoryTraverser._should_ignore_directory` applied to a directory name. -/
def shouldIgnoreDirectory (s : Settings) (dirName : String) : Bool :=
  (s.ignore_hidden && startsWithDot dirName) ||
    s.ignore_dirs.any (fun pat => fnmatch dirName pat)

/-- `DirectoryTraverser._should_ignore_file` applied to a file name. -/
def shouldIgnoreFile (s : Settings) (fileName : String) : Bool :=
  let extension := pyLower (pySuffix fileName)
  if s.ignore_hidden && startsWithDot fileName then true
  else if s.ignore_files.any (fun pat => fnmatch fileName pat) then true
  else if !s.include_extensions.isEmpty then
    !(s.include_extensions.contains extension)
  else false

/-! ## Cache ignore predicates (cache.py 195-258) -/

/-- `CacheManager._should_ignore_file_by_patterns` (note: no hidden-file
check, unlike the traverser's predicate). -/
def shouldIgnoreFileByPatterns (s : Settings) (fileName : String) : Bool :=
  let extension := pyLower (pySuffix fileName)
  if s.ignore_files.any (fun pat => fnmatch fileName pat) then true
  else if !s.include_extensions.isEmpty then
    !(s.include_extensions.contains extension)
  else false

/-- `CacheManager._should_ignore_for_hash` -/
def shouldIgnoreForHash (s : Settings) (fileName : String) : Bool :=
  if fileName = "digest.json" ∨ fileName = ".digin_hash" then true
  else shouldIgnoreFileByPatterns s fileName

/-- `CacheManager._is_text_file`: extension in the configured include list or
in a fixed set of common text extensions. -/
def cacheIsTextFile (s : Settings) (fileName : String) : Bool :=
  let extension := pyLower (pySuffix fileName)
  if s.include_extensions.contains extension then true
  else
    [".txt", ".md", ".rst", ".json", ".yaml", ".yml", ".xml", ".html",
     ".css", ".js", ".py", ".java", ".c", ".cpp", ".h"].contains extension

/-! ## Digest (the dict produced by the AI client / aggregator)

Digests are JSON dicts in the source.  They are modelled as a structure whose
fields are exactly the keys the aggregator reads or writes; `Option` tracks
key presence (`_clean_empty_fields` removes keys, `dict.get(k, default)`
becomes `Option.getD`).  Dict-shaped sub-values are association lists. -/

/-- One public-interface entry: a JSON object, kept as its item list. -/
abbrev Interface := List (String × String)

structure Digest where
  name : Option String := none
  path : Option String := none
  kind : Option String := none
  summary : Option String := none
  capabilities : Option (List String) := none
  public_interfaces : Option (List (String × List Interface)) := none
  dependencies : Option (List (String × List String)) := none
  configuration : Option (List (String × List String)) := none
  risks : Option (List String) := none
  evidence : Option (List (String × List String)) := none
  confidence : Option Int := none
  analyzed_at : Option Nat := none
  analyzer_version : Option String := none
  narrative : Option (List (String × String)) := none
deriving Repr, DecidableEq

/-- A SHA-256 value, modelled as the transcript of chunks fed to the hasher. -/
abbrev Fingerprint := List String

/-! ## The model file system

`FTree` is a directory: name, regular files, the two cache-artifact slots,
subdirectories.  Artifact slots carry a readability flag; the digest artifact
additionally carries its parse result (`none` = malformed JSON). -/

structure FileMeta where
  name : String
  mtime : Nat
  size : Nat
  content : String
  /-- abstract result of the mimetype / printable-byte-sample heuristic used
  by `DirectoryTraverser._is_text_file` for files outside the extension list -/
  mimeText : Bool
deriving Repr, DecidableEq

structure DigestArtifact where
  readable : Bool
  parsed : Option Digest
deriving Repr, DecidableEq

structure HashArtifact where
  readable : Bool
  stored : Fingerprint
deriving Repr, DecidableEq

inductive FTree where
  | node (dirname : String) (files : List FileMeta)
      (dArt : Option DigestArtifact) (hArt : Option HashArtifact)
      (subs : List FTree)

def FTree.name : FTree → String
  | .node n _ _ _ _ => n

def FTree.files : FTree → List FileMeta
  | .node _ f _ _ _ => f

def FTree.dArt : FTree → Option DigestArtifact
  | .node _ _ d _ _ => d

def FTree.hArt : FTree → Option HashArtifact
  | .node _ _ _ h _ => h

def FTree.subs : FTree → List FTree
  | .node _ _ _ _ s => s

/-- A directory path, as the list of names below the analysis root
(the root itself is `[]`). -/
abbrev Path := List String

/-- Walk down the tree along a relative path. -/
def findSubtree : Path → FTree → Option FTree
  | [], t => some t
  | n :: p, t =>
    match t.subs.find? (fun c => c.name = n) with
    | none => none
    | some c => findSubtree p c

mutual

/-- All directory paths of the tree (the root is `[]`). -/
def dirPaths : FTree → List Path
  | .node _ _ _ _ subs => [] :: dirPathsList subs

def dirPathsList : List FTree → List Path
  | [] => []
  | c :: rest => (dirPaths c).map (fun q => c.name :: q) ++ dirPathsList rest

end

mutual

/-- Well-formed directory: sibling directory names are distinct (true of any
real file system; `FTree` itself cannot guarantee it). -/
def FTree.wf : FTree → Bool
  | .node _ _ _ _ subs =>
    decide (subs.map FTree.name).Nodup && FTree.wfList subs

def FTree.wfList : List FTree → Bool
  | [] => true
  | c :: rest => c.wf && FTree.wfList rest

end

/-- The `.name` of the directory at `p` (the root keeps the tree's own name:
the traverser tests the real basename of the analysis root). -/
def dirName (t : FTree) (p : Path) : String := p.getLastD t.name

/-- Child directory paths of `p`, in listing order. -/
def childDirs (t : FTree) (p : Path) : List Path :=
  match findSubtree p t with
  | none => []
  | some c => c.subs.map (fun d => p ++ [d.name])

/-- Whether `p` is a directory of `t` that the traversal can reach: `p`
exists and no prefix of it (the root included) is ignored. -/
def visibleDir (s : Settings) (t : FTree) (p : Path) : Bool :=
  (dirPaths t).contains p &&
    (List.range (p.length + 1)).all
      (fun i => !shouldIgnoreDirectory s (dirName t (p.take i)))

/-! ## Traverser: leaf scan and bottom-up order (traverser.py 33-132) -/

mutual

/-- `_scan_directory` from `find_leaf_directories`: depth-first descent that
never enters ignored directories; a directory with no non-ignored
subdirectories is a leaf. -/
def scanLeaves (s : Settings) : FTree → Path → List Path
  | .node _ _ _ _ subs, p =>
    if (subs.filter (fun c => !shouldIgnoreDirectory s c.name)).isEmpty then [p]
    else scanLeavesList s subs p

def scanLeavesList (s : Settings) : List FTree → Path → List Path
  | [], _ => []
  | c :: rest, p =>
    (if shouldIgnoreDirectory s c.name then []
     else scanLeaves s c (p ++ [c.name])) ++ scanLeavesList s rest p

end

/-- Python string `<` (lexicographic on code points), kernel-reducible. -/
def charListLt : List Char → List Char → Bool
  | [], [] => false
  | [], _ :: _ => true
  | _ :: _, [] => false
  | a :: as, b :: bs => a < b || (a = b && charListLt as bs)

def charListLe (a b : List Char) : Bool := !(charListLt b a)

def strLe (a b : String) : Bool := charListLe a.data b.data

def strLt (a b : String) : Bool := charListLt a.data b.data

/-- Python `sorted` on `Path` objects: ascending by path string. -/
def pathKey (p : Path) : String := String.intercalate "/" p

def sortPaths (l : List Path) : List Path :=
  l.insertionSort (fun p q => strLe (pathKey p) (pathKey q) = true)

/-- `find_leaf_directories` -/
def findLeafDirectories (s : Settings) (t : FTree) : List Path :=
  if shouldIgnoreDirectory s t.name then []
  else sortPaths (scanLeaves s t [])

/-- `_all_children_processed`: every non-ignored child directory of `P` is in
`processed`. -/
def allChildrenProcessed (s : Settings) (t : FTree) (P : Path)
    (proc : List Path) : Bool :=
  (childDirs t P).all
    (fun c => shouldIgnoreDirectory s (dirName t c) || proc.contains c)

/-- One candidate of `_get_next_level_parents`' loop body (acc = current
`next_level` and `processed`). -/
def nextLevelStep (s : Settings) (t : FTree) (acc : List Path × List Path)
    (d : Path) : List Path × List Path :=
  if d.isEmpty then acc  -- parent == root_path.parent
  else
    let P := d.dropLast
    -- `_should_skip_parent`
    if acc.2.contains P || shouldIgnoreDirectory s (dirName t P) then acc
    else if allChildrenProcessed s t P acc.2 && !(acc.1.contains P) then
      (acc.1 ++ [P], acc.2 ++ [P])
    else acc

/-- `_get_next_level_parents` (returns the new level and the grown
`processed` set). -/
def nextLevelParents (s : Settings) (t : FTree) (cur proc : List Path) :
    List Path × List Path :=
  cur.foldl (nextLevelStep s t) ([], proc)

/-- The `while current_level` loop of `get_analysis_order`.  The Python loop
is unbounded; it is run here with explicit fuel, and
`countDirs t + 1` is proved sufficient below. -/
def analysisLoop (s : Settings) (t : FTree) :
    Nat → List Path → List Path → List Path → List Path
  | 0, order, _, _ => order
  | fuel + 1, order, proc, cur =>
    if cur.isEmpty then order
    else
      analysisLoop s t fuel
        (order ++ (nextLevelParents s t cur proc).1)
        (nextLevelParents s t cur proc).2
        (nextLevelParents s t cur proc).1

def countDirs (t : FTree) : Nat := (dirPaths t).length

/-- `get_analysis_order` -/
def getAnalysisOrder (s : Settings) (t : FTree) : List Path :=
  let leaves := findLeafDirectories s t
  let order := analysisLoop s t (countDirs t + 1) leaves leaves leaves
  if order.contains ([] : Path) then order else order ++ [[]]

/-! ## Cache store (cache.py)

The SHA-256 state is the transcript of `hasher.update` chunks.  Reading a
child's `.digin_hash` feeds its 64-char hex digest; `fpToBytes` stands for
that hex digest (an escaped flattening, standing in for the injective
`transcript → hex digest` map of a collision-free hash). -/

def pyBool (b : Bool) : String := if b then "True" else "False"

def sortStrings (l : List String) : List String :=
  l.insertionSort (fun a b => strLe a b = true)

/-- Prefix-free escape, making the flattening injective. -/
def escapeChunk (s : String) : String :=
  String.mk (s.data.flatMap
    (fun c => if c = '\\' then ['\\', 'b']
              else if c = '|' then ['\\', 'p'] else [c]))

def fpToBytes (fp : Fingerprint) : String :=
  String.intercalate "|" (fp.map escapeChunk)

/-- `_hash_single_file`: relative name, mtime, size, and content for small
text files. -/
def hashSingleFile (s : Settings) (f : FileMeta) : List String :=
  [f.name, toString f.mtime, toString f.size] ++
    (if f.size ≤ 8192 && cacheIsTextFile s f.name then [f.content] else [])

/-- `_get_files_to_hash`: non-ignored files, sorted by path string. -/
def filesToHash (s : Settings) (files : List FileMeta) : List FileMeta :=
  (files.filter (fun f => !shouldIgnoreForHash s f.name)).insertionSort
    (fun f g => strLe f.name g.name = true)

/-- The `for child in directory.iterdir()` fold over child `.digin_hash`
files.  A `PermissionError` on a child's hash file aborts the whole loop
(`except PermissionError: pass` wraps the loop, not its body). -/
def childHashChunks : List FTree → List String
  | [] => []
  | c :: rest =>
    match c.hArt with
    | none => childHashChunks rest
    | some h =>
      if h.readable then
        (c.name ++ "/.digin_hash") :: fpToBytes h.stored :: childHashChunks rest
      else []

/-- `_calculate_directory_hash` on the directory node at the path being
hashed. -/
def calcDirectoryHash (s : Settings) (node : FTree) : Fingerprint :=
  sortStrings
      ["narrative_enabled:" ++ pyBool s.narrative_enabled,
       "api_provider:" ++ s.api_provider]
    ++ (filesToHash s node.files).flatMap (hashSingleFile s)
    ++ childHashChunks node.subs

/-- The exceptions `get_cached_digest` can leak (it installs no handler). -/
inductive PyError where
  | permissionError
  | jsonDecodeError
deriving Repr, DecidableEq

/-- `get_cached_digest` (cache.py 33-75).  The source reads the stored hash
(`open` raises on an unreadable file), recomputes, compares, then parses
`digest.json` (`json.load` raises on malformed content).  A corrupt stored
hash is a stored fingerprint value that differs from every computed one. -/
def getCachedDigest (s : Settings) (t : FTree) (p : Path) :
    Except PyError (Option Digest) :=
  if !s.cache_enabled then .ok none
  else
    match findSubtree p t with
    | none => .ok none
    | some node =>
      match node.dArt, node.hArt with
      | some da, some ha =>
        if !ha.readable then .error .permissionError
        else if ha.stored ≠ calcDirectoryHash s node then .ok none
        else if !da.readable then .error .permissionError
        else
          match da.parsed with
          | none => .error .jsonDecodeError
          | some d => .ok (some d)
      | _, _ => .ok none

/-- Replace the directory node at `p` (all name-matching siblings; under
`FTree.wf` at most one matches, as on a real file system). -/
def updateAt : Path → (FTree → FTree) → FTree → FTree
  | [], f, t => f t
  | n :: p, f, .node nm fs da ha subs =>
    .node nm fs da ha
      (subs.map (fun c => if c.name = n then updateAt p f c else c))

def setDArt (a : Option DigestArtifact) : FTree → FTree
  | .node n f _ h subs => .node n f a h subs

def setHArt (a : Option HashArtifact) : FTree → FTree
  | .node n f d _ subs => .node n f d a subs

/-- `save_digest` (cache.py 77-101): write `digest.json`, then compute the
hash of the directory as it now stands, then write `.digin_hash`.
Write failures are not modelled. -/
def saveDigest (s : Settings) (p : Path) (d : Digest) (t : FTree) : FTree :=
  if !s.cache_enabled then t
  else
    let t1 := updateAt p (setDArt (some ⟨true, some d⟩)) t
    let h :=
      match findSubtree p t1 with
      | none => []
      | some node => calcDirectoryHash s node
    updateAt p (setHArt (some ⟨true, h⟩)) t1

/-! ## Traverser: directory info collection (traverser.py 134-212) -/

structure FileInfo where
  name : String
  path : String
  size : Nat
  extension : String
  is_text : Bool
  content_preview : Option String
deriving Repr, DecidableEq

structure DirInfo where
  path : String
  name : String
  files : List FileInfo
  subdirs : List (String × String)
  total_files : Nat
  total_size : Nat
deriving Repr, DecidableEq

/-- `str(path)` for a model path (the analysis root's own name stands for its
absolute prefix). -/
def pathStr (t : FTree) (p : Path) : String :=
  String.intercalate "/" (t.name :: p)

/-- `DirectoryTraverser._is_text_file`: extension in the include list, or the
mimetype / printable-sample heuristic (abstracted as `FileMeta.mimeText`). -/
def traverserIsTextFile (s : Settings) (f : FileMeta) : Bool :=
  s.include_extensions.contains (pyLower (pySuffix f.name)) || f.mimeText

/-- `_collect_file_info`.  Oversized files are omitted entirely; small text
files carry a bounded content preview (50 KiB read, modelled on chars). -/
def collectFileInfo (s : Settings) (dirPathStr : String) (f : FileMeta) :
    Option FileInfo :=
  if f.size > s.maxFileSizeBytes then none
  else
    let isText := traverserIsTextFile s f
    let preview :=
      if isText && f.size ≤ 100 * 1024 then
        let content := pyTake f.content (50 * 1024)
        if pyStrip content ≠ "" then some content else none
      else none
    some ⟨f.name, dirPathStr ++ "/" ++ f.name, f.size,
          pyLower (pySuffix f.name), isText, preview⟩

/-- `collect_directory_info` -/
def collectDirectoryInfo (s : Settings) (t : FTree) (p : Path) : DirInfo :=
  match findSubtree p t with
  | none => ⟨pathStr t p, dirName t p, [], [], 0, 0⟩
  | some node =>
    let infos := (node.files.filter (fun f => !shouldIgnoreFile s f.name)).filterMap
      (collectFileInfo s (pathStr t p))
    { path := pathStr t p
      name := dirName t p
      files := infos
      subdirs := (node.subs.filter (fun c => !shouldIgnoreDirectory s c.name)).map
        (fun c => (c.name, pathStr t (p ++ [c.name])))
      total_files := infos.length
      total_size := (infos.map (fun i => i.size)).sum }

/-! ## Aggregator (aggregator.py)

`collections.Counter` semantics: keys in first-occurrence order,
`most_common()` = stable sort by count descending (CPython `sorted` with
`reverse=True` keeps first-occurrence order among ties).  `list(set(...))`
(used only inside one summary string) is modelled as first-occurrence
deduplication.  Float arithmetic in the confidence score is modelled with
exact rationals, `int()` as truncation toward zero. -/

/-- Keys of a dict/`Counter`/`set` built by insertion, in first-occurrence
order. -/
def dedupKeepFirst {α : Type _} [DecidableEq α] (l : List α) : List α :=
  l.foldl (fun acc a => if a ∈ acc then acc else acc ++ [a]) []

/-- `Counter(pool).most_common()`: (key, count) pairs, by count descending,
ties in first-occurrence order. -/
def mostCommon {α : Type _} [DecidableEq α] (pool : List α) : List (α × Nat) :=
  ((dedupKeepFirst pool).insertionSort
      (fun a b => pool.count b ≤ pool.count a)).map
    (fun a => (a, pool.count a))

/-- The children's `kind` fields (`digest.get("kind", "unknown")`). -/
def kindsOf (children : List Digest) : List String :=
  children.map (fun d => d.kind.getD "unknown")

/-- `_determine_aggregated_kind`.  `count >= len * 0.6` is modelled exactly as
`5 * count ≥ 3 * len` (the float product `len * 0.6` never crosses an integer
for any feasible list length, since 3·len/5 is at distance ≥ 1/5 from any
other integer while the rounding error is ≪ 1/5). -/
def determineAggregatedKind (children : List Digest) : String :=
  if children.isEmpty then "unknown"
  else
    let kinds := kindsOf children
    let distinct := dedupKeepFirst kinds
    if distinct.length = 1 then distinct.headD "unknown"
    else
      let n := children.length
      let mostCommonKind := ((mostCommon kinds).headD ("unknown", 0)).1
      if 5 * kinds.count "service" ≥ 3 * n then "service"
      else if 5 * kinds.count "lib" ≥ 3 * n then "lib"
      else if 5 * kinds.count "test" ≥ 3 * n then "test"
      else if kinds.contains "service" && kinds.contains "lib" then "infra"
      else mostCommonKind

/-- `_get_dominant_kind` -/
def getDominantKind (children : List Digest) : String :=
  ((mostCommon (kindsOf children)).headD ("unknown", 0)).1

/-- `_get_kind_summary` -/
def getKindSummary (k : String) (n : Nat) : String :=
  if k = "service" then "包含 " ++ toString n ++ " 个业务服务模块"
  else if k = "lib" then "包含 " ++ toString n ++ " 个工具库和通用组件"
  else if k = "test" then "包含 " ++ toString n ++ " 个测试模块"
  else if k = "ui" then "包含 " ++ toString n ++ " 个用户界面组件"
  else if k = "config" then "包含 " ++ toString n ++ " 个配置相关模块"
  else "包含 " ++ toString n ++ " 个子模块"

/-- `_add_capabilities_info` -/
def addCapabilitiesInfo (children : List Digest) : String :=
  let allCaps := children.flatMap (fun d => (d.capabilities.getD []).take 2)
  if allCaps.isEmpty then ""
  else "，主要提供：" ++ String.intercalate " | " ((dedupKeepFirst allCaps).take 3)

/-- `_add_child_names_info` -/
def addChildNamesInfo (names : List String) (n : Nat) : String :=
  if n ≤ 3 then "（" ++ String.intercalate " | " names ++ "）"
  else "（包括 " ++ String.intercalate " | " (names.take 3) ++ " 等）"

/-- `_generate_aggregated_summary` -/
def generateAggregatedSummary (dname : String) (children : List Digest) :
    String :=
  if children.isEmpty then dname ++ " 目录（暂无子模块分析结果）"
  else
    let names := children.map (fun d => d.name.getD "未知模块")
    getKindSummary (getDominantKind children) children.length
      ++ addCapabilitiesInfo children
      ++ addChildNamesInfo names children.length

/-- `capability.lower().split()` (whitespace split, empty pieces dropped). -/
def wordsOf (cap : String) : List String :=
  pySplit (pyLower cap)

/-- `_merge_capabilities`: greedy keyword-disjoint selection from
`most_common`, capped at 8 (the cap check sits after the append). -/
def mergeCapabilities (children : List Digest) : List String :=
  let pool := children.flatMap (fun d => d.capabilities.getD [])
  (((mostCommon pool).foldl
      (fun (acc : List String × List String × Bool) capCount =>
        let (merged, seen, done) := acc
        if done then acc
        else
          let keyWords := wordsOf capCount.1
          if keyWords.all (fun w => !seen.contains w) then
            let merged := merged ++ [capCount.1]
            (merged, seen ++ keyWords, merged.length ≥ 8)
          else acc)
      ([], [], false))).1

/-- `str(sorted(interface.items()))`, the dedup key for one interface dict:
items sorted by key, then value. -/
def interfaceKey (i : Interface) : Interface :=
  i.insertionSort
    (fun a b => (strLt a.1 b.1 || (a.1 == b.1 && strLe a.2 b.2)) = true)

/-- Per-category dedup of `_merge_public_interfaces` (cap 10; the break check
sits at loop level, after the conditional append). -/
def dedupInterfaces (l : List Interface) : List Interface :=
  ((l.foldl
      (fun (acc : List Interface × List Interface × Bool) i =>
        let (uniq, seen, done) := acc
        if done then acc
        else
          let key := interfaceKey i
          let (uniq, seen) :=
            if seen.contains key then (uniq, seen)
            else (uniq ++ [i], seen ++ [key])
          (uniq, seen, uniq.length ≥ 10))
      ([], [], false))).1

/-- `_merge_public_interfaces` -/
def mergePublicInterfaces (children : List Digest) :
    List (String × List Interface) :=
  (["http", "rpc", "cli", "api"].map
      (fun cat =>
        (cat,
         dedupInterfaces
           (children.flatMap
             (fun d =>
               (((d.public_interfaces.getD []).filter
                   (fun kv => kv.1 = cat ∧ kv.2 ≠ [])).flatMap
                 (fun kv => kv.2))))))).filter
    (fun kv => kv.2 ≠ [])

/-- `_merge_dependencies` (`sorted(list(set(...)))`; keys omitted when
empty). -/
def mergeDependencies (children : List Digest) :
    List (String × List String) :=
  let internal := sortStrings (dedupKeepFirst
    (children.flatMap (fun d =>
      (List.lookup "internal" (d.dependencies.getD [])).getD [])))
  let external := sortStrings (dedupKeepFirst
    (children.flatMap (fun d =>
      (List.lookup "external" (d.dependencies.getD [])).getD [])))
  (if internal ≠ [] then [("internal", internal)] else []) ++
    (if external ≠ [] then [("external", external)] else [])

/-- `_merge_configuration` -/
def mergeConfiguration (children : List Digest) :
    List (String × List String) :=
  let env := sortStrings (dedupKeepFirst
    (children.flatMap (fun d =>
      (List.lookup "env" (d.configuration.getD [])).getD [])))
  let confFiles := sortStrings (dedupKeepFirst
    (children.flatMap (fun d =>
      (List.lookup "files" (d.configuration.getD [])).getD [])))
  (if env ≠ [] then [("env", env)] else []) ++
    (if confFiles ≠ [] then [("files", confFiles)] else [])

/-- `_merge_risks`: multi-mention risks plus top singles up to 3, capped at 6
(break check at loop level). -/
def mergeRisks (children : List Digest) : List String :=
  let pool := children.flatMap (fun d => d.risks.getD [])
  (((mostCommon pool).foldl
      (fun (acc : List String × Bool) rc =>
        let (merged, done) := acc
        if done then acc
        else
          let merged :=
            if rc.2 > 1 ∨ merged.length < 3 then merged ++ [rc.1] else merged
          (merged, merged.length ≥ 6))
      ([], false))).1

/-- `_create_evidence`: one `digest.json` reference per child (when the child
digest has a non-empty path), then the parent's own collected file paths. -/
def createEvidence (children : List Digest) (info : Option DirInfo) :
    List (String × List String) :=
  let childFiles := children.filterMap (fun d =>
    match d.path.getD "" with
    | "" => none
    | cp => some (cp ++ "/digest.json"))
  let direct :=
    match info with
    | none => []
    | some i => i.files.filterMap (fun f =>
        if f.path = "" then none else some f.path)
  [("files", childFiles ++ direct)]

/-- Exact (unnormalised) rationals, kernel-reducible; they model the float
arithmetic of the confidence computation without rounding error.  The
denominator is kept positive by construction. -/
structure Frac where
  num : Int
  den : Int
deriving Repr, DecidableEq

def Frac.ofInt (n : Int) : Frac := ⟨n, 1⟩

def Frac.add (a b : Frac) : Frac := ⟨a.num * b.den + b.num * a.den, a.den * b.den⟩

def Frac.sub (a b : Frac) : Frac := ⟨a.num * b.den - b.num * a.den, a.den * b.den⟩

def Frac.mul (a b : Frac) : Frac := ⟨a.num * b.num, a.den * b.den⟩

def Frac.div (a b : Frac) : Frac :=
  let r : Frac := ⟨a.num * b.den, a.den * b.num⟩
  if r.den < 0 then ⟨-r.num, -r.den⟩ else r

def Frac.le (a b : Frac) : Bool := a.num * b.den ≤ b.num * a.den

def Frac.min (a b : Frac) : Frac := if Frac.le a b then a else b

def Frac.sum (l : List Frac) : Frac := l.foldl Frac.add ⟨0, 1⟩

/-- Python `int()` on an exact rational: truncation toward zero. -/
def pyTrunc (q : Frac) : Int := Int.tdiv q.num q.den

/-- `_calculate_aggregate_confidence` (exact-fraction model of the float
computation). -/
def calcAggregateConfidence (children : List Digest) : Int :=
  if children.isEmpty then 30
  else
    let confs : List Frac := children.map
      (fun d => Frac.ofInt (d.confidence.getD 50))
    let avg : Frac := Frac.div (Frac.sum confs) (Frac.ofInt confs.length)
    let avg1 : Frac :=
      if 1 < confs.length then
        let variance : Frac :=
          Frac.div (Frac.sum (confs.map (fun c => Frac.mul (Frac.sub c avg) (Frac.sub c avg))))
            (Frac.ofInt confs.length)
        Frac.sub avg (Frac.min (Frac.div variance (Frac.ofInt 100)) (Frac.ofInt 20))
      else avg
    let avg2 : Frac := Frac.add avg1 (Frac.ofInt (min (children.length * 2) 10))
    max 0 (min 100 (pyTrunc avg2))

/-- `keyword in text` (substring containment). -/
def pyIn (keyword text : String) : Bool :=
  decide (List.IsInfix keyword.data text.data)

/-- `_get_domain_description` -/
def getDomainDescription (children : List Digest) : String :=
  let text := pyLower
    (String.intercalate " " (children.flatMap (fun d => d.capabilities.getD [])))
  if ["web", "http", "api", "server", "service"].any (fun k => pyIn k text) then
    "Web服務"
  else if ["data", "database", "storage"].any (fun k => pyIn k text) then
    "數據處理"
  else if ["ui", "frontend", "界面"].any (fun k => pyIn k text) then
    "用戶界面"
  else if ["test", "測試"].any (fun k => pyIn k text) then
    "測試"
  else "功能"

/-- `_get_top_capability_summary` -/
def getTopCapabilitySummary (children : List Digest) : String :=
  let caps := mergeCapabilities children
  if caps.isEmpty then "提供多種功能"
  else if caps.length = 1 then "專注於" ++ caps.headD ""
  else if caps.length ≤ 3 then "主要提供" ++ String.intercalate " | " caps
  else "提供" ++ caps.headD "" ++ "等" ++ toString caps.length ++ "項功能"

/-- `_generate_conversational_summary`.  With a non-empty child list the
`child_keys` list is never empty, so only that branch is reachable. -/
def generateConversationalSummary (dname : String) (children : List Digest) :
    String :=
  if children.isEmpty then
    "這是 " ++ dname ++ " 目錄，還沒有發現具體的功能模組。"
  else
    let childKeys := children.map (fun d =>
      let nm := d.name.getD "unknown"
      match d.capabilities.getD [] with
      | [] => nm
      | cap0 :: _ =>
        nm ++ "(" ++ pyTake cap0 15 ++ (if cap0.data.length > 15 then "..." else "")
          ++ ")")
    let keyModules := String.intercalate " | " (childKeys.take 3)
    let moreText :=
      if children.length > 3 then "，等" ++ toString children.length ++ "個模組"
      else "，共" ++ toString children.length ++ "個模組"
    "這個 " ++ dname ++ " 目錄包含" ++ getDomainDescription children
      ++ "相關功能，主要模組：" ++ keyModules ++ moreText ++ "。"

/-- `_generate_handshake` -/
def generateHandshake (dname : String) (children : List Digest) : String :=
  if children.isEmpty then "歡迎查看 " ++ dname ++ "！"
  else
    let k := getDominantKind children
    let intro :=
      if k = "service" then "這裡是核心業務邏輯區"
      else if k = "lib" then "這裡是工具庫和通用組件區"
      else if k = "test" then "這裡是測試代碼區"
      else if k = "ui" then "這裡是用戶界面區"
      else if k = "config" then "這裡是配置管理區"
      else if k = "infra" then "這裡是基礎設施區"
      else "這裡是項目的重要區域"
    "👋 " ++ intro ++ "，" ++ getTopCapabilitySummary children ++ "，共有 "
      ++ toString children.length ++ " 個模組等你探索！"

/-- `_generate_next_steps` (children sorted by confidence + 10·capability
count, descending; `sorted(reverse=True)` keeps original order among
ties). -/
def generateNextSteps (children : List Digest) : String :=
  if children.isEmpty then "建議先查看目錄下的直接文件，了解基本結構。"
  else
    let score := fun (d : Digest) =>
      d.confidence.getD 0 + 10 * ((d.capabilities.getD []).length : Int)
    let sortedChildren := children.insertionSort (fun a b => score b ≤ score a)
    let top := (sortedChildren.take 2).map (fun d => d.name.getD "unknown")
    if children.length = 1 then
      "建議先查看 " ++ top.headD "" ++ " 模組，了解核心功能。"
    else if children.length ≤ 3 then
      "建議按順序查看：" ++ String.intercalate " → " top ++ "，逐步理解整體架構。"
    else
      "建議先重點查看 " ++ String.intercalate " 和 " top
        ++ " 模組，這是理解整個目錄的關鍵入口。"

/-- `_generate_narrative_fields` -/
def generateNarrativeFields (dname : String) (children : List Digest) :
    List (String × String) :=
  [("summary", generateConversationalSummary dname children),
   ("handshake", generateHandshake dname children),
   ("next_steps", generateNextSteps children)]

/-- `_clean_empty_fields` on the structured digest: empty lists/dicts and
empty strings are dropped (`None`-valued fields are already absent). -/
def cleanList {α : Type _} : Option (List α) → Option (List α)
  | some [] => none
  | v => v

def cleanStr : Option String → Option String
  | some "" => none
  | v => v

def cleanDigest (d : Digest) : Digest where
  name := cleanStr d.name
  path := cleanStr d.path
  kind := cleanStr d.kind
  summary := cleanStr d.summary
  capabilities := cleanList d.capabilities
  public_interfaces := cleanList d.public_interfaces
  dependencies := cleanList d.dependencies
  configuration := cleanList d.configuration
  risks := cleanList d.risks
  evidence := cleanList d.evidence
  confidence := d.confidence
  analyzed_at := d.analyzed_at
  analyzer_version := cleanStr d.analyzer_version
  narrative := cleanList d.narrative

/-- The producer version tag (`src.__version__`; its value is immaterial to
every property below). -/
def analyzerVersion : String := "digin"

/-- `aggregate_summaries`.  `clock` stands for `datetime.now()`. -/
def aggregateSummaries (s : Settings) (clock : Nat) (dname dpath : String)
    (children : List Digest) (info : Option DirInfo) : Digest :=
  cleanDigest
    { name := some dname
      path := some dpath
      kind := some (determineAggregatedKind children)
      summary := some (generateAggregatedSummary dname children)
      capabilities := some (mergeCapabilities children)
      public_interfaces := some (mergePublicInterfaces children)
      dependencies := some (mergeDependencies children)
      configuration := some (mergeConfiguration children)
      risks := some (mergeRisks children)
      evidence := some (createEvidence children info)
      confidence := some (calcAggregateConfidence children)
      analyzed_at := some clock
      analyzer_version := some analyzerVersion
      narrative :=
        if s.narrative_enabled then
          some (generateNarrativeFields dname children)
        else none }

/-! ## Orchestrator (analyzer.py)

The external Leaf Analyzer is a parameter: an availability flag plus a pure
function from directory info to an optional digest (`none` covers
`AIClientError`, empty, and non-dict results — all swallowed by
`_analyze_leaf_directory`).  `clock` stands for the wall clock.  Dict
truthiness (`if digest:`) is the digest having at least one key.  The only
modelled exception source inside per-directory processing is
`get_cached_digest` (the source catches every error of the AI call and of
aggregation; file writes are assumed to succeed). -/

structure Stats where
  directories_analyzed : Nat := 0
  cache_hits : Nat := 0
  cache_misses : Nat := 0
  ai_calls : Nat := 0
  errors : Nat := 0
  total_files : Nat := 0
deriving Repr, DecidableEq

structure AIClient where
  available : Bool
  analyze : DirInfo → Option Digest

abbrev DigestMap := List (Path × Digest)

def DigestMap.find (m : DigestMap) (p : Path) : Option Digest :=
  List.lookup p m

/-- Python truthiness of a digest dict. -/
def truthy (d : Digest) : Bool := d ≠ {}

/-- The `digest["name"] = ...` / `digest["path"] = ...` defaulting of
`_analyze_leaf_directory`. -/
def fillDefaults (info : DirInfo) (d : Digest) : Digest :=
  let d1 := if d.name.isNone then { d with name := some info.name } else d
  if d1.path.isNone then { d1 with path := some info.path } else d1

/-- `_analyze_leaf_directory` (the `ai_calls` counter is bumped before the
call; every failure becomes `none`). -/
def analyzeLeafDirectory (ai : AIClient) (info : DirInfo) (stats : Stats) :
    Option Digest × Stats :=
  let stats := { stats with ai_calls := stats.ai_calls + 1 }
  match ai.analyze info with
  | none => (none, stats)
  | some d => if truthy d then (some (fillDefaults info d), stats) else (none, stats)

/-- `_get_child_digests` -/
def getChildDigests (s : Settings) (t : FTree) (p : Path) (m : DigestMap) :
    List Digest :=
  (childDirs t p).filterMap (fun c =>
    if shouldIgnoreDirectory s (dirName t c) then none
    else DigestMap.find m c)

/-- `_create_empty_result` -/
def createEmptyResult (t : FTree) (clock : Nat) : Digest where
  name := some t.name
  path := some (pathStr t [])
  kind := some "unknown"
  summary := some "Analysis failed or no analyzable content found"
  confidence := some 0
  analyzed_at := some clock
  analyzer_version := some "unknown"

/-- Result of `_analyze_directory` for one directory. -/
structure StepResult where
  digest : Option Digest
  fs : FTree
  stats : Stats
  aiCalled : Bool

/-- The cache-miss path of `_analyze_directory` (analyzer.py 133-156). -/
def analyzeDirectoryMiss (s : Settings) (ai : AIClient) (clock : Nat) (p : Path)
    (fs : FTree) (m : DigestMap) (stats : Stats) :
    Except PyError StepResult :=
  let stats := { stats with cache_misses := stats.cache_misses + 1 }
  let info := collectDirectoryInfo s fs p
  let stats := { stats with total_files := stats.total_files + info.total_files }
  let children := getChildDigests s fs p m
  if children.isEmpty then
    let r := analyzeLeafDirectory ai info stats
    let fs' :=
      match r.1 with
      | some d => if truthy d && s.cache_enabled then saveDigest s p d fs else fs
      | none => fs
    .ok ⟨r.1, fs', r.2, true⟩
  else
    let dig := aggregateSummaries s clock (dirName fs p) (pathStr fs p)
      children (some info)
    let fs' := if truthy dig && s.cache_enabled then saveDigest s p dig fs else fs
    .ok ⟨some dig, fs', stats, false⟩

/-- `_analyze_directory` (analyzer.py 114-156). -/
def analyzeDirectory (s : Settings) (ai : AIClient) (clock : Nat) (p : Path)
    (fs : FTree) (m : DigestMap) (stats : Stats) :
    Except PyError StepResult :=
  let hitE : Except PyError (Option Digest) :=
    if s.cache_enabled then getCachedDigest s fs p else .ok none
  match hitE with
  | .error e => .error e
  | .ok hit =>
    match hit with
    | some d =>
      if truthy d then
        .ok ⟨some d, fs, { stats with cache_hits := stats.cache_hits + 1 }, false⟩
      else
        -- a falsy cached dict falls through to the miss path
        analyzeDirectoryMiss s ai clock p fs m stats
    | none => analyzeDirectoryMiss s ai clock p fs m stats

/-- One iteration of the `for directory in analysis_order` loop of `analyze`:
a raised exception is caught, counted, and processing continues. -/
def runStep (s : Settings) (ai : AIClient) (clock : Nat)
    (acc : FTree × DigestMap × Stats) (p : Path) : FTree × DigestMap × Stats :=
  let (fs, m, stats) := acc
  match analyzeDirectory s ai clock p fs m stats with
  | .error _ => (fs, m, { stats with errors := stats.errors + 1 })
  | .ok r =>
    match r.digest with
    | some d =>
      if truthy d then
        (r.fs, (p, d) :: m,
         { r.stats with directories_analyzed := r.stats.directories_analyzed + 1 })
      else (r.fs, m, r.stats)
    | none => (r.fs, m, r.stats)

/-- `analyze` (analyzer.py 47-112). -/
def analyze (s : Settings) (ai : AIClient) (clock : Nat) (t : FTree) :
    Except String (Digest × FTree × Stats) :=
  if !ai.available then
    .error "AnalysisError: AI provider CLI not available"
  else
    let order := getAnalysisOrder s t
    if order.isEmpty then .ok (createEmptyResult t clock, t, {})
    else
      let fin := order.foldl (runStep s ai clock) (t, ([] : DigestMap), ({} : Stats))
      match DigestMap.find fin.2.1 [] with
      | some d => .ok (d, fin.1, fin.2.2)
      | none => .ok (createEmptyResult t clock, fin.1, fin.2.2)

structure DrySummary where
  total_directories : Nat
  leaf_directories : Nat
  parent_directories : Nat
  estimated_files : Int
  ai_provider : String
  cache_enabled : Bool
  analysis_order : List String
deriving Repr, DecidableEq

/-- `dry_run` (analyzer.py 303-337).  The second component is the file
system after the call; every callee of the source function
(`get_analysis_order`, `find_leaf_directories`, `collect_directory_info`) is
a pure read, so the state passes through unchanged. -/
def dryRun (s : Settings) (t : FTree) : DrySummary × FTree :=
  let order := getAnalysisOrder s t
  let leafCount := (findLeafDirectories s t).length
  let sampled := (order.take 10).foldl
    (fun acc p => acc + (collectDirectoryInfo s t p).total_files) 0
  let estimated : Int :=
    if order.length > 10 then
      pyTrunc (Frac.mul (Frac.div (Frac.ofInt sampled) (Frac.ofInt 10))
        (Frac.ofInt order.length))
    else (sampled : Int)
  (⟨order.length, leafCount, order.length - leafCount, estimated,
    s.api_provider, s.cache_enabled, order.map (pathStr t)⟩, t)

/-! ## Fixtures for counterexamples and witnesses -/

/-- Empty-ish default settings: nothing ignored beyond hidden entries,
no extension allow-list, caching on. -/
def sDefault : Settings :=
  ⟨[], [], [], true, 1048576, "claude", true, false, false⟩

/-- Settings with a hidden-ignore policy and a `.py` allow-list
(the shape of the shipped config template). -/
def sPy : Settings :=
  ⟨[], [], [".py"], true, 1048576, "claude", true, false, false⟩

/-- Settings whose directory ignore list matches a directory named `cache`. -/
def sIgnCache : Settings :=
  ⟨["cache"], [], [], true, 1048576, "claude", true, false, false⟩

/-- Settings whose directory ignore list matches the analysis root `r`. -/
def sIgnRoot : Settings :=
  ⟨["r"], [], [], true, 1048576, "claude", true, false, false⟩

/-! ## Small structural lemmas about the cache store -/

theorem updateAt_name (f : FTree → FTree) (hf : ∀ u, (f u).name = u.name) :
    ∀ (p : Path) (t : FTree), (updateAt p f t).name = t.name := by
  intro p t
  cases p with
  | nil => exact hf t
  | cons n q => cases t with
    | node nm fs da ha subs => rfl

theorem setDArt_name (a : Option DigestArtifact) (u : FTree) :
    (setDArt a u).name = u.name := by cases u; rfl

theorem setHArt_name (a : Option HashArtifact) (u : FTree) :
    (setHArt a u).name = u.name := by cases u; rfl

/-- Walking to `p` after replacing the node at `p` finds the replaced node
(for name-preserving replacements). -/
theorem findSubtree_updateAt_self (f : FTree → FTree)
    (hf : ∀ u, (f u).name = u.name) :
    ∀ (p : Path) (t : FTree),
      findSubtree p (updateAt p f t) = (findSubtree p t).map f := by
  intro p
  induction p with
  | nil => intro t; rfl
  | cons n q ih =>
    intro t
    cases t with
    | node nm fs da ha subs =>
      show findSubtree (n :: q) (.node nm fs da ha
        (subs.map (fun c => if c.name = n then updateAt q f c else c))) = _
      rw [findSubtree, findSubtree]
      simp only [FTree.subs]
      -- find? over the mapped sibling list finds the mapped first match
      induction subs with
      | nil => rfl
      | cons c rest ihs =>
        by_cases hc : c.name = n
        · simp only [List.map_cons, List.find?_cons, hc, if_pos hc]
          have hn : (updateAt q f c).name = n := by
            rw [updateAt_name f hf q c]; exact hc
          simp [hn, hc, ih]
        · simp only [List.map_cons, List.find?_cons, if_neg hc]
          simp only [hc, decide_False]
          exact ihs

theorem calc_setDArt (s : Settings) (a : Option DigestArtifact) (u : FTree) :
    calcDirectoryHash s (setDArt a u) = calcDirectoryHash s u := by
  cases u; rfl

theorem calc_setHArt (s : Settings) (a : Option HashArtifact) (u : FTree) :
    calcDirectoryHash s (setHArt a u) = calcDirectoryHash s u := by
  cases u; rfl

theorem setDArt_dArt (a : Option DigestArtifact) (u : FTree) :
    (setDArt a u).dArt = a := by cases u; rfl

theorem setHArt_hArt (a : Option HashArtifact) (u : FTree) :
    (setHArt a u).hArt = a := by cases u; rfl

theorem setHArt_dArt (a : Option HashArtifact) (u : FTree) :
    (setHArt a u).dArt = u.dArt := by cases u; rfl

/-- **C6** (confirmed).  For every settings with caching enabled, every
existing directory `p` and every digest `x`, `save_digest(p, x)` followed by
`get_cached_digest(p)` with no intervening file-system change returns `x`:
the digest artifact written by `save_digest` parses back to `x`, and the
fingerprint stored alongside it (computed after the digest write — its own
two artifacts are excluded from hashing) matches the fingerprint recomputed
at lookup time. -/
theorem cache_round_trip (s : Settings) (t : FTree) (p : Path) (x : Digest)
    (node : FTree) (hc : s.cache_enabled = true)
    (hp : findSubtree p t = some node) :
    getCachedDigest s (saveDigest s p x t) p = .ok (some x) := by
  have hfp1 : findSubtree p (updateAt p (setDArt (some ⟨true, some x⟩)) t)
      = some (setDArt (some ⟨true, some x⟩) node) := by
    rw [findSubtree_updateAt_self _ (setDArt_name _), hp]; rfl
  have hfp2 : findSubtree p
      (updateAt p
        (setHArt (some ⟨true, calcDirectoryHash s (setDArt (some ⟨true, some x⟩) node)⟩))
        (updateAt p (setDArt (some ⟨true, some x⟩)) t))
      = some (setHArt
          (some ⟨true, calcDirectoryHash s (setDArt (some ⟨true, some x⟩) node)⟩)
          (setDArt (some ⟨true, some x⟩) node)) := by
    rw [findSubtree_updateAt_self _ (setHArt_name _), hfp1]; rfl
  unfold saveDigest
  simp only [hc, Bool.not_true, if_neg Bool.false_ne_true]
  rw [hfp1]
  unfold getCachedDigest
  simp only [hc, Bool.not_true, if_neg Bool.false_ne_true]
  rw [hfp2]
  simp [setHArt_dArt, setDArt_dArt, setHArt_hArt, calc_setHArt, calc_setDArt]

/-- Witness for `cache_round_trip` at a concrete directory. -/
theorem cache_round_trip_witness :
    getCachedDigest sDefault
        (saveDigest sDefault ["A"] { name := some "x" }
          (FTree.node "r" [] none none [FTree.node "A" [] none none []]))
        ["A"]
      = .ok (some { name := some "x" }) :=
  cache_round_trip sDefault _ ["A"] { name := some "x" }
    (FTree.node "A" [] none none []) (by decide) (by rfl)

instance {ε α : Type _} [DecidableEq ε] [DecidableEq α] :
    DecidableEq (Except ε α) := fun a b =>
  match a, b with
  | .ok x, .ok y =>
    if h : x = y then isTrue (by rw [h]) else isFalse (by simp [h])
  | .error x, .error y =>
    if h : x = y then isTrue (by rw [h]) else isFalse (by simp [h])
  | .ok _, .error _ => isFalse (by simp)
  | .error _, .ok _ => isFalse (by simp)

/-- **C3** (code_bug).  The claim says `get_cached_digest` answers every
degraded artifact state with a miss and never raises.  The code does return a
miss when an artifact is absent or when the recomputed fingerprint differs
from the stored one — but it installs no exception handler, so an unreadable
`.digin_hash` raises `PermissionError` (cache.py:55) and a malformed
`digest.json` whose fingerprint still matches raises `JSONDecodeError`
(cache.py:69), in contradiction with the claim, with §7(c) of the spec, and
with the repository's own `test_permission_error_handling`. -/
theorem get_cached_digest_raises_on_unreadable_or_corrupt :
    -- both artifacts absent: a miss, as claimed
    getCachedDigest sDefault (.node "d" [] none none []) [] = .ok none
    ∧ -- stored fingerprint differs from the recomputed one: a miss, as claimed
      getCachedDigest sDefault
        (.node "d" [] (some ⟨true, some { name := some "x" }⟩)
          (some ⟨true, ["bogus"]⟩) []) [] = .ok none
    ∧ -- unreadable fingerprint artifact: raises instead of a miss
      getCachedDigest sDefault
        (.node "d" [] (some ⟨true, some { name := some "x" }⟩)
          (some ⟨false, []⟩) []) [] = .error .permissionError
    ∧ -- malformed digest artifact with matching fingerprint: raises instead
      -- of a miss (`digest.json` is excluded from hashing, so corrupting it
      -- leaves the stored fingerprint valid)
      getCachedDigest sDefault
        (.node "d" [] (some ⟨true, none⟩)
          (some ⟨true,
            calcDirectoryHash sDefault (.node "d" [] (some ⟨true, none⟩) none [])⟩)
          []) []
        = .error .jsonDecodeError := by
  refine ⟨by decide, by decide, by decide, by decide⟩

/-- **C4** (code_bug).  The claim says the Cache Store's file-exclusion
decision is exactly the Traverser's `should_ignore_file` plus the two cache
artifacts, and that only non-ignored subdirectories' fingerprints are folded
in.  Both parts fail: the cache's `_should_ignore_file_by_patterns` lacks the
traverser's hidden-file rule (despite cache.py:210 "Use same ignore logic as
traverser"), so a hidden file's content flows into the fingerprint; and the
child-fingerprint fold (cache.py:150-158) never consults the
directory-ignore rules, so an ignored subdirectory's stored fingerprint
changes the parent's fingerprint. -/
theorem fingerprint_ignore_rules_diverge_from_traverser :
    -- the traverser ignores the hidden file `.secret.py` …
    shouldIgnoreFile sPy ".secret.py" = true
    ∧ -- … but the cache store hashes it (not one of its own artifacts either)
      shouldIgnoreForHash sPy ".secret.py" = false
    ∧ -- consequently its content changes the directory fingerprint
      calcDirectoryHash sPy (.node "d" [⟨".secret.py", 1, 3, "AAA", true⟩] none none [])
        ≠ calcDirectoryHash sPy (.node "d" [⟨".secret.py", 1, 3, "BBB", true⟩] none none [])
    ∧ -- `cache` is an ignored directory name for `sIgnCache` …
      shouldIgnoreDirectory sIgnCache "cache" = true
    ∧ -- … yet its stored fingerprint still changes the parent's fingerprint
      calcDirectoryHash sIgnCache
          (.node "d" [] none none [.node "cache" [] none (some ⟨true, ["x"]⟩) []])
        ≠ calcDirectoryHash sIgnCache
          (.node "d" [] none none [.node "cache" [] none (some ⟨true, ["y"]⟩) []]) := by
  refine ⟨by decide, by decide, by decide, by decide, by decide⟩

/-- **C9** (confirmed).  `dry_run` mutates nothing: the file system (all
cache artifacts included) after the call is the one before it.  The embedded
`dryRun` threads the state through the same callees the source uses
(`get_analysis_order`, `find_leaf_directories`, `collect_directory_info`),
all of which are pure reads; the source function never references the AI
client, so it performs no external analysis by construction. -/
theorem dry_run_preserves_filesystem (s : Settings) (t : FTree) :
    (dryRun s t).2 = t := rfl

/-- **C8** (confirmed).  On a cache miss (or with caching disabled) the
orchestrator sends a directory to the external Leaf Analyzer exactly when it
has no completed child digest in the current run, and otherwise aggregates
the completed child digests — file-system leafness is irrelevant. -/
theorem leaf_vs_parent_by_completed_children (s : Settings) (ai : AIClient)
    (clock : Nat) (p : Path) (fs : FTree) (m : DigestMap) (stats : Stats)
    (hmiss : s.cache_enabled = true → getCachedDigest s fs p = .ok none) :
    ∃ r, analyzeDirectory s ai clock p fs m stats = .ok r ∧
      (r.aiCalled = true ↔ getChildDigests s fs p m = []) ∧
      (getChildDigests s fs p m ≠ [] →
        r.digest = some (aggregateSummaries s clock (dirName fs p) (pathStr fs p)
          (getChildDigests s fs p m) (some (collectDirectoryInfo s fs p)))) := by
  have hmiss' : (if s.cache_enabled then getCachedDigest s fs p else .ok none)
      = .ok none := by
    cases hsc : s.cache_enabled with
    | false => simp
    | true => simp [hmiss hsc]
  unfold analyzeDirectory
  rw [hmiss']
  unfold analyzeDirectoryMiss
  cases hch : (getChildDigests s fs p m).isEmpty with
  | true =>
    simp only [hch, if_true]
    refine ⟨_, rfl, ?_, ?_⟩
    · simpa using List.isEmpty_iff.mp hch
    · intro hne; exact absurd (List.isEmpty_iff.mp hch) hne
  | false =>
    simp only [hch, Bool.false_eq_true, if_false]
    refine ⟨_, rfl, ?_, ?_⟩
    · constructor
      · intro h; exact absurd h (by simp)
      · intro h; exact absurd h (by simpa using List.isEmpty_iff.mpr.mt (by simp [hch]) )
    · intro _; rfl

/-- Witness for `leaf_vs_parent_by_completed_children`: the root of
`r/{A}` is not a file-system leaf, but with no completed child digest (A
"failed") it is sent to the external analyzer. -/
theorem leaf_vs_parent_by_completed_children_witness :
    ∃ r, analyzeDirectory sDefault ⟨true, fun _ => none⟩ 0 []
        (.node "r" [] none none [.node "A" [] none none []]) [] {} = .ok r ∧
      r.aiCalled = true := by
  obtain ⟨r, h1, h2, h3⟩ := leaf_vs_parent_by_completed_children sDefault
    ⟨true, fun _ => none⟩ 0 []
    (.node "r" [] none none [.node "A" [] none none []]) [] {}
    (fun _ => by decide)
  exact ⟨r, h1, h2.mpr (by decide)⟩

/-! ## Counter lemmas, for the aggregation-classification claim -/

theorem dedupKeepFirst_go_mem {α : Type _} [DecidableEq α] (l : List α) :
    ∀ (acc : List α) (x : α),
      (x ∈ l.foldl (fun acc a => if a ∈ acc then acc else acc ++ [a]) acc
        ↔ x ∈ acc ∨ x ∈ l) := by
  induction l with
  | nil => simp
  | cons a rest ih =>
    intro acc x
    simp only [List.foldl_cons]
    by_cases ha : a ∈ acc
    · rw [if_pos ha, ih]
      constructor
      · rintro (h | h)
        · exact Or.inl h
        · exact Or.inr (List.mem_cons_of_mem a h)
      · rintro (h | h)
        · exact Or.inl h
        · rcases List.mem_cons.mp h with h | h
          · exact Or.inl (h ▸ ha)
          · exact Or.inr h
    · rw [if_neg ha, ih]
      simp only [List.mem_append, List.mem_singleton, List.mem_cons]
      tauto

theorem dedupKeepFirst_mem {α : Type _} [DecidableEq α] (l : List α) (x : α) :
    x ∈ dedupKeepFirst l ↔ x ∈ l := by
  unfold dedupKeepFirst
  rw [dedupKeepFirst_go_mem]
  simp

theorem dedupKeepFirst_go_const {α : Type _} [DecidableEq α] (k : α) :
    ∀ (l acc : List α), (∀ x ∈ l, x = k) → k ∈ acc →
      l.foldl (fun acc a => if a ∈ acc then acc else acc ++ [a]) acc = acc := by
  intro l
  induction l with
  | nil => intro acc _ _; rfl
  | cons a rest ih =>
    intro acc hall hk
    have ha : a = k := hall a (List.mem_cons_self a rest)
    simp only [List.foldl_cons, ha, if_pos hk]
    exact ih acc (fun x hx => hall x (List.mem_cons_of_mem a hx)) hk

theorem dedupKeepFirst_all_same {α : Type _} [DecidableEq α] (l : List α)
    (k : α) (hne : l ≠ []) (h : ∀ x ∈ l, x = k) : dedupKeepFirst l = [k] := by
  cases l with
  | nil => exact absurd rfl hne
  | cons a rest =>
    have ha : a = k := h a (List.mem_cons_self a rest)
    unfold dedupKeepFirst
    simp only [List.foldl_cons, List.not_mem_nil, if_neg (List.not_mem_nil a),
      List.nil_append]
    rw [ha]
    exact dedupKeepFirst_go_const k rest [k]
      (fun x hx => h x (List.mem_cons_of_mem a hx)) (List.mem_singleton_self k)

theorem dedupKeepFirst_length_one_all_same {α : Type _} [DecidableEq α]
    (l : List α) (h : (dedupKeepFirst l).length = 1) :
    ∃ k, ∀ x ∈ l, x = k := by
  match hd : dedupKeepFirst l with
  | [] => rw [hd] at h; simp at h
  | [k] =>
    refine ⟨k, fun x hx => ?_⟩
    have := (dedupKeepFirst_mem l x).mpr hx
    rw [hd] at this
    simpa using this
  | a :: b :: rest => rw [hd] at h; simp at h

/-- The head of `most_common()` is a plurality element: it occurs in the pool
and no element occurs more often. -/
theorem mostCommon_spec {α : Type _} [DecidableEq α] (pool : List α)
    (hne : pool ≠ []) :
    ∃ k cnt rest, mostCommon pool = (k, cnt) :: rest ∧ k ∈ pool ∧
      ∀ x ∈ pool, pool.count x ≤ pool.count k := by
  haveI htot : IsTotal α (fun a b => pool.count b ≤ pool.count a) :=
    ⟨fun a b => (Nat.le_total (pool.count b) (pool.count a)).imp id id⟩
  haveI htr : IsTrans α (fun a b => pool.count b ≤ pool.count a) :=
    ⟨fun a b c hab hbc => Nat.le_trans hbc hab⟩
  have hperm := List.perm_insertionSort
    (fun a b => pool.count b ≤ pool.count a) (dedupKeepFirst pool)
  have hsorted := List.sorted_insertionSort
    (fun a b => pool.count b ≤ pool.count a) (dedupKeepFirst pool)
  cases hs : (dedupKeepFirst pool).insertionSort
      (fun a b => pool.count b ≤ pool.count a) with
  | nil =>
    exfalso
    obtain ⟨x, hx⟩ := List.exists_mem_of_ne_nil pool hne
    have : x ∈ dedupKeepFirst pool := (dedupKeepFirst_mem pool x).mpr hx
    rw [← hperm.mem_iff, hs] at this
    exact List.not_mem_nil x this
  | cons k tail =>
    refine ⟨k, pool.count k, tail.map (fun a => (a, pool.count a)), ?_, ?_, ?_⟩
    · unfold mostCommon
      rw [hs]
      rfl
    · have : k ∈ dedupKeepFirst pool := by
        rw [← hperm.mem_iff, hs]; exact List.mem_cons_self k tail
      exact (dedupKeepFirst_mem pool k).mp this
    · intro x hx
      have hxd : x ∈ dedupKeepFirst pool := (dedupKeepFirst_mem pool x).mpr hx
      rw [← hperm.mem_iff, hs] at hxd
      rcases List.mem_cons.mp hxd with h | h
      · rw [h]
      · rw [hs] at hsorted
        exact (List.sorted_cons.mp hsorted).1 x h

/-- `_determine_aggregated_kind` past its empty and all-same-kind branches is
the ≥60% / mixed-kind / plurality chain. -/
theorem determineAggregatedKind_not_all_same (c : Digest) (cs : List Digest)
    (hno : ¬∃ k, ∀ x ∈ kindsOf (c :: cs), x = k) :
    determineAggregatedKind (c :: cs) =
      (if 5 * (kindsOf (c :: cs)).count "service" ≥ 3 * (c :: cs).length then
        "service"
       else if 5 * (kindsOf (c :: cs)).count "lib" ≥ 3 * (c :: cs).length then
        "lib"
       else if 5 * (kindsOf (c :: cs)).count "test" ≥ 3 * (c :: cs).length then
        "test"
       else if (kindsOf (c :: cs)).contains "service"
           && (kindsOf (c :: cs)).contains "lib" then "infra"
       else ((mostCommon (kindsOf (c :: cs))).headD ("unknown", 0)).1) := by
  have hlen : ¬ (dedupKeepFirst (kindsOf (c :: cs))).length = 1 := by
    intro h; exact hno (dedupKeepFirst_length_one_all_same _ h)
  unfold determineAggregatedKind
  simp only [List.isEmpty_cons, Bool.false_eq_true, if_false, if_neg hlen]

/-- **C7** (confirmed).  The aggregated classification follows the spec's
rule: no children ⇒ `unknown`; a single shared classification is inherited;
otherwise ≥60% `service` (then `lib`, then `test`) wins — `count ≥ len·0.6`
is stated exactly as `5·count ≥ 3·len`; otherwise the presence of both
`service` and `lib` gives `infra`; otherwise a plurality classification of
the children is returned (ties resolved toward the first-encountered kind,
as `Counter.most_common` does). -/
theorem aggregated_kind_follows_spec_rule (children : List Digest) :
    (children = [] → determineAggregatedKind children = "unknown")
    ∧ (∀ k, children ≠ [] → (∀ x ∈ kindsOf children, x = k) →
        determineAggregatedKind children = k)
    ∧ (¬ (∃ k, ∀ x ∈ kindsOf children, x = k) →
        ((5 * (kindsOf children).count "service" ≥ 3 * children.length →
            determineAggregatedKind children = "service")
        ∧ (5 * (kindsOf children).count "service" < 3 * children.length →
            5 * (kindsOf children).count "lib" ≥ 3 * children.length →
            determineAggregatedKind children = "lib")
        ∧ (5 * (kindsOf children).count "service" < 3 * children.length →
            5 * (kindsOf children).count "lib" < 3 * children.length →
            5 * (kindsOf children).count "test" ≥ 3 * children.length →
            determineAggregatedKind children = "test")
        ∧ (5 * (kindsOf children).count "service" < 3 * children.length →
            5 * (kindsOf children).count "lib" < 3 * children.length →
            5 * (kindsOf children).count "test" < 3 * children.length →
            "service" ∈ kindsOf children → "lib" ∈ kindsOf children →
            determineAggregatedKind children = "infra")
        ∧ (5 * (kindsOf children).count "service" < 3 * children.length →
            5 * (kindsOf children).count "lib" < 3 * children.length →
            5 * (kindsOf children).count "test" < 3 * children.length →
            ¬("service" ∈ kindsOf children ∧ "lib" ∈ kindsOf children) →
            determineAggregatedKind children ∈ kindsOf children ∧
              ∀ x ∈ kindsOf children,
                (kindsOf children).count x
                  ≤ (kindsOf children).count (determineAggregatedKind children)))) := by
  refine ⟨?_, ?_, ?_⟩
  · intro h; rw [h]; rfl
  · intro k hne hall
    cases children with
    | nil => exact absurd rfl hne
    | cons c cs =>
      have hkne : kindsOf (c :: cs) ≠ [] := by simp [kindsOf]
      have hd := dedupKeepFirst_all_same _ k hkne hall
      unfold determineAggregatedKind
      simp [hd]
  · intro hno
    cases children with
    | nil =>
      exact absurd ⟨"unknown", by simp [kindsOf]⟩ hno
    | cons c cs =>
      have hrw := determineAggregatedKind_not_all_same c cs hno
      have hkne : kindsOf (c :: cs) ≠ [] := by simp [kindsOf]
      refine ⟨?_, ?_, ?_, ?_, ?_⟩
      · intro h1
        rw [hrw, if_pos h1]
      · intro h1 h2
        rw [hrw, if_neg (by omega), if_pos h2]
      · intro h1 h2 h3
        rw [hrw, if_neg (by omega), if_neg (by omega), if_pos h3]
      · intro h1 h2 h3 hs hl
        rw [hrw, if_neg (by omega), if_neg (by omega), if_neg (by omega)]
        have : ((kindsOf (c :: cs)).contains "service"
            && (kindsOf (c :: cs)).contains "lib") = true := by
          exact Bool.and_eq_true_iff.mpr
            ⟨List.elem_eq_true_of_mem hs, List.elem_eq_true_of_mem hl⟩
        rw [if_pos this]
      · intro h1 h2 h3 hnsl
        rw [hrw, if_neg (by omega), if_neg (by omega), if_neg (by omega)]
        have : ¬ (((kindsOf (c :: cs)).contains "service"
            && (kindsOf (c :: cs)).contains "lib") = true) := by
          intro hb
          obtain ⟨h1, h2⟩ := Bool.and_eq_true_iff.mp hb
          exact hnsl ⟨List.mem_of_elem_eq_true h1, List.mem_of_elem_eq_true h2⟩
        rw [if_neg this]
        obtain ⟨k, cnt, rest, hmc, hkmem, hkmax⟩ := mostCommon_spec _ hkne
        rw [hmc]
        exact ⟨hkmem, hkmax⟩

theorem not_all_same_of_two {l : List String} (a b : String) (ha : a ∈ l)
    (hb : b ∈ l) (hab : a ≠ b) : ¬∃ k, ∀ x ∈ l, x = k :=
  fun ⟨k, h⟩ => hab ((h a ha).trans (h b hb).symm)

/-- Witness for `aggregated_kind_follows_spec_rule`: children classified
`service, service, lib` aggregate to `service` (≥60% branch), and
`service, lib` aggregate to `infra` (mixed-kind branch). -/
theorem aggregated_kind_follows_spec_rule_witness :
    determineAggregatedKind
        [{ kind := some "service" }, { kind := some "service" },
         { kind := some "lib" }] = "service"
    ∧ determineAggregatedKind
        [{ kind := some "service" }, { kind := some "lib" }] = "infra" := by
  constructor
  · exact ((aggregated_kind_follows_spec_rule
      [{ kind := some "service" }, { kind := some "service" },
       { kind := some "lib" }]).2.2
        (not_all_same_of_two "service" "lib" (by decide) (by decide)
          (by decide))).1 (by decide)
  · exact ((((aggregated_kind_follows_spec_rule
      [{ kind := some "service" }, { kind := some "lib" }]).2.2
        (not_all_same_of_two "service" "lib" (by decide) (by decide)
          (by decide))).2.2.2.1) (by decide) (by decide) (by decide)
        (by decide) (by decide))

/-! ## Path and tree lemmas for the analysis-order proofs -/

/-- `x` is an ancestor-or-self of `y`. -/
def PrefixOf (x y : Path) : Prop := ∃ q, y = x ++ q

/-- `x` is a proper ancestor of `y`. -/
def ProperPrefixOf (x y : Path) : Prop := ∃ n q, y = x ++ n :: q

theorem PrefixOf.refl (x : Path) : PrefixOf x x := ⟨[], by simp⟩

theorem properPrefixOf_iff (x y : Path) :
    ProperPrefixOf x y ↔ PrefixOf x y ∧ x ≠ y := by
  constructor
  · rintro ⟨n, q, rfl⟩
    exact ⟨⟨n :: q, rfl⟩, by simp⟩
  · rintro ⟨⟨q, rfl⟩, hne⟩
    cases q with
    | nil => simp at hne
    | cons n q => exact ⟨n, q, rfl⟩

theorem PrefixOf.trans {x y z : Path} (h1 : PrefixOf x y) (h2 : PrefixOf y z) :
    PrefixOf x z := by
  obtain ⟨q1, rfl⟩ := h1
  obtain ⟨q2, rfl⟩ := h2
  exact ⟨q1 ++ q2, by simp⟩

theorem prefixOf_dropLast (x : Path) : PrefixOf x.dropLast x := by
  cases x with
  | nil => exact ⟨[], rfl⟩
  | cons a as =>
    refine ⟨[(a :: as).getLast (by simp)], ?_⟩
    exact (List.dropLast_append_getLast (by simp)).symm

theorem prefixOf_take (x : Path) (i : Nat) : PrefixOf (x.take i) x :=
  ⟨x.drop i, (List.take_append_drop i x).symm⟩

theorem prefixOf_length_le {x y : Path} (h : PrefixOf x y) :
    x.length ≤ y.length := by
  obtain ⟨q, rfl⟩ := h
  simp

theorem prefixOf_antisymm {x y : Path} (h1 : PrefixOf x y)
    (h2 : y.length ≤ x.length) : x = y := by
  obtain ⟨q, rfl⟩ := h1
  simp at h2
  simp [h2]

/-- The step from a proper ancestor toward `y`: the ancestor extended by the
next segment of `y`. -/
theorem properPrefixOf_step {x y : Path} (h : ProperPrefixOf x y) :
    ∃ n, PrefixOf (x ++ [n]) y ∧ y.take (x.length + 1) = x ++ [n] := by
  obtain ⟨n, q, rfl⟩ := h
  refine ⟨n, ⟨q, by simp⟩, ?_⟩
  rw [List.take_append_eq_append_take]
  simp [List.take_cons]

theorem prefixOf_of_prefixOf_prefixOf {x y z : Path} (h1 : PrefixOf x z)
    (h2 : PrefixOf y z) (hle : x.length ≤ y.length) : PrefixOf x y := by
  obtain ⟨q1, hq1⟩ := h1
  obtain ⟨q2, hq2⟩ := h2
  have he : x ++ q1 = y ++ q2 := by rw [← hq1, ← hq2]
  have hx : x = y.take x.length := by
    have h3 := congrArg (List.take x.length) he
    rw [List.take_append_eq_append_take, List.take_append_eq_append_take] at h3
    simpa [Nat.sub_eq_zero_of_le hle] using h3
  have he2 : y = y.take x.length ++ y.drop x.length :=
    (List.take_append_drop _ y).symm
  rw [← hx] at he2
  exact ⟨y.drop x.length, he2⟩

/-- `findSubtree` splits along path concatenation. -/
theorem findSubtree_append (p q : Path) :
    ∀ t, findSubtree (p ++ q) t = (findSubtree p t).bind (findSubtree q) := by
  induction p with
  | nil => intro t; rfl
  | cons n p ih =>
    intro t
    show findSubtree (n :: (p ++ q)) t = _
    rw [findSubtree]
    cases hfind : t.subs.find? (fun c => c.name = n) with
    | none => simp [findSubtree, hfind]
    | some c => simp [findSubtree, hfind, ih]

theorem findSubtree_isSome_of_prefixOf {x y : Path} {t : FTree}
    (h : PrefixOf x y) (hy : (findSubtree y t).isSome = true) :
    (findSubtree x t).isSome = true := by
  obtain ⟨q, rfl⟩ := h
  rw [findSubtree_append] at hy
  cases hx : findSubtree x t with
  | none => rw [hx] at hy; simp at hy
  | some u => rfl

theorem dirName_append_singleton (t : FTree) (p : Path) (n : String) :
    dirName t (p ++ [n]) = n := by
  unfold dirName
  rw [List.getLastD_concat]

/-- Child paths of `p`, restricted to non-ignored names. -/
def visChildPaths (s : Settings) (t : FTree) (p : Path) : List Path :=
  (childDirs t p).filter (fun c => !shouldIgnoreDirectory s (dirName t c))

theorem childDirs_eq (t : FTree) (p : Path) (u : FTree)
    (hu : findSubtree p t = some u) :
    childDirs t p = u.subs.map (fun d => p ++ [d.name]) := by
  unfold childDirs
  rw [hu]

theorem mem_childDirs_valid {t : FTree} {p c : Path}
    (hc : c ∈ childDirs t p) : (findSubtree c t).isSome = true := by
  unfold childDirs at hc
  cases hu : findSubtree p t with
  | none => rw [hu] at hc; simp at hc
  | some u =>
    rw [hu] at hc
    obtain ⟨d, hd, rfl⟩ := List.mem_map.mp hc
    rw [findSubtree_append, hu]
    show (findSubtree [d.name] u).isSome = true
    rw [findSubtree]
    cases hfind : u.subs.find? (fun c => c.name = d.name) with
    | none =>
      exfalso
      have := List.find?_eq_none.mp hfind d hd
      simp at this
    | some c' => rfl

theorem mem_childDirs_shape {t : FTree} {p c : Path}
    (hc : c ∈ childDirs t p) : ∃ n, c = p ++ [n] := by
  unfold childDirs at hc
  cases hu : findSubtree p t with
  | none => rw [hu] at hc; simp at hc
  | some u =>
    rw [hu] at hc
    obtain ⟨d, _, rfl⟩ := List.mem_map.mp hc
    exact ⟨d.name, rfl⟩

/-- A valid single-step extension of a valid path is a child path. -/
theorem childDirs_of_valid_step {t : FTree} {p : Path} {n : String}
    (h : (findSubtree (p ++ [n]) t).isSome = true) :
    p ++ [n] ∈ childDirs t p := by
  rw [findSubtree_append] at h
  cases hu : findSubtree p t with
  | none => rw [hu] at h; simp at h
  | some u =>
    rw [hu] at h
    change (findSubtree [n] u).isSome = true at h
    rw [childDirs_eq t p u hu]
    rw [findSubtree] at h
    cases hfind : u.subs.find? (fun c => c.name = n) with
    | none => rw [hfind] at h; simp [findSubtree] at h
    | some c =>
      have hmem := List.mem_of_find?_eq_some hfind
      have hname : c.name = n := by
        have := List.find?_some hfind
        simpa using this
      exact List.mem_map.mpr ⟨c, hmem, by rw [hname]⟩

/-- A directory the traversal can reach: it exists, and neither it nor any
ancestor (the analysis root included) is ignored. -/
def Vis (s : Settings) (t : FTree) (p : Path) : Prop :=
  (findSubtree p t).isSome = true ∧
    ∀ q, PrefixOf q p → shouldIgnoreDirectory s (dirName t q) = false

theorem Vis.of_prefixOf {s : Settings} {t : FTree} {p q : Path}
    (hp : Vis s t p) (hq : PrefixOf q p) : Vis s t q :=
  ⟨findSubtree_isSome_of_prefixOf hq hp.1,
   fun r hr => hp.2 r (hr.trans hq)⟩

theorem mem_visChildPaths {s : Settings} {t : FTree} {p c : Path} :
    c ∈ visChildPaths s t p ↔
      c ∈ childDirs t p ∧ shouldIgnoreDirectory s (dirName t c) = false := by
  unfold visChildPaths
  rw [List.mem_filter]
  simp

theorem Vis.of_visChild {s : Settings} {t : FTree} {p c : Path}
    (hp : Vis s t p) (hc : c ∈ visChildPaths s t p) : Vis s t c := by
  obtain ⟨hcd, hign⟩ := mem_visChildPaths.mp hc
  obtain ⟨n, rfl⟩ := mem_childDirs_shape hcd
  refine ⟨mem_childDirs_valid hcd, ?_⟩
  intro q hq
  by_cases hlen : q.length ≤ p.length
  · exact hp.2 q (prefixOf_of_prefixOf_prefixOf hq ⟨[n], rfl⟩ hlen)
  · have : q = p ++ [n] := by
      apply prefixOf_antisymm hq
      have := prefixOf_length_le hq
      simp at this ⊢
      omega
    rw [this]
    exact hign

/-- Walking one visible step from a proper ancestor toward a reachable
directory. -/
theorem vis_step {s : Settings} {t : FTree} {x y : Path} (hy : Vis s t y)
    (hxy : ProperPrefixOf x y) :
    ∃ c, c ∈ visChildPaths s t x ∧ PrefixOf c y ∧ c.length = x.length + 1 := by
  obtain ⟨n, hcy, _⟩ := properPrefixOf_step hxy
  refine ⟨x ++ [n], ?_, hcy, by simp⟩
  rw [mem_visChildPaths]
  constructor
  · exact childDirs_of_valid_step (findSubtree_isSome_of_prefixOf hcy hy.1)
  · rw [dirName_append_singleton]
    have := hy.2 (x ++ [n]) hcy
    rwa [dirName_append_singleton] at this

theorem allChildrenProcessed_iff {s : Settings} {t : FTree} {P : Path}
    {proc : List Path} :
    allChildrenProcessed s t P proc = true ↔
      ∀ c ∈ visChildPaths s t P, c ∈ proc := by
  unfold allChildrenProcessed
  rw [List.all_eq_true]
  constructor
  · intro h c hc
    obtain ⟨hcd, hign⟩ := mem_visChildPaths.mp hc
    have := h c hcd
    rw [hign] at this
    simpa using this
  · intro h c hcd
    by_cases hign : shouldIgnoreDirectory s (dirName t c) = true
    · simp [hign]
    · have : c ∈ visChildPaths s t P :=
        mem_visChildPaths.mpr ⟨hcd, by simpa using hign⟩
      have := h c this
      simp [this]

theorem allChildrenProcessed_mono {s : Settings} {t : FTree} {P : Path}
    {proc proc' : List Path} (hsub : ∀ x ∈ proc, x ∈ proc')
    (h : allChildrenProcessed s t P proc = true) :
    allChildrenProcessed s t P proc' = true := by
  rw [allChildrenProcessed_iff] at h ⊢
  exact fun c hc => hsub c (h c hc)

mutual

/-- Height of a directory counting only non-ignored subdirectories; the
measure that bounds how many loop levels separate it from its deepest
visible leaf. -/
def visHeight (s : Settings) : FTree → Nat
  | .node _ _ _ _ subs => 1 + visHeightList s subs

def visHeightList (s : Settings) : List FTree → Nat
  | [] => 0
  | c :: rest =>
    max (if shouldIgnoreDirectory s c.name then 0 else visHeight s c)
      (visHeightList s rest)

end

def heightAt (s : Settings) (t : FTree) (p : Path) : Nat :=
  match findSubtree p t with
  | none => 0
  | some u => visHeight s u

theorem visHeight_le_visHeightList (s : Settings) (c : FTree) :
    ∀ subs : List FTree, c ∈ subs →
      shouldIgnoreDirectory s c.name = false →
      visHeight s c ≤ visHeightList s subs := by
  intro subs
  induction subs with
  | nil => intro h; exact absurd h (List.not_mem_nil c)
  | cons d rest ih =>
    intro hmem hign
    rcases List.mem_cons.mp hmem with h | h
    · subst h
      rw [visHeightList, hign]
      simp
    · rw [visHeightList]
      exact le_trans (ih h hign) (le_max_right _ _)

theorem heightAt_child_lt {s : Settings} {t : FTree} {p c : Path}
    (hc : c ∈ visChildPaths s t p) : heightAt s t c < heightAt s t p := by
  obtain ⟨hcd, hign⟩ := mem_visChildPaths.mp hc
  obtain ⟨n, rfl⟩ := mem_childDirs_shape hcd
  rw [dirName_append_singleton] at hign
  unfold childDirs at hcd
  cases hu : findSubtree p t with
  | none => rw [hu] at hcd; simp at hcd
  | some u =>
    rw [hu] at hcd
    have hvalid := @mem_childDirs_valid t p (p ++ [n])
      (by unfold childDirs; rw [hu]; exact hcd)
    rw [findSubtree_append, hu] at hvalid
    change (findSubtree [n] u).isSome = true at hvalid
    rw [findSubtree] at hvalid
    cases hfind : u.subs.find? (fun d => d.name = n) with
    | none => rw [hfind] at hvalid; simp [findSubtree] at hvalid
    | some c' =>
      have hmem := List.mem_of_find?_eq_some hfind
      have hname : c'.name = n := by simpa using List.find?_some hfind
      have hheight : heightAt s t (p ++ [n]) = visHeight s c' := by
        unfold heightAt
        rw [findSubtree_append, hu]
        change (match findSubtree [n] u with
          | none => 0 | some u => visHeight s u) = _
        rw [findSubtree, hfind]
        rfl
      rw [hheight]
      unfold heightAt
      rw [hu]
      cases u with
      | node nm fs da ha subs =>
        have hvh : visHeight s (FTree.node nm fs da ha subs)
            = 1 + visHeightList s subs := rfl
        show visHeight s c' < visHeight s (FTree.node nm fs da ha subs)
        rw [hvh]
        have := visHeight_le_visHeightList s c' subs hmem (by rw [hname]; exact hign)
        omega

/-- Every existing directory path occurs in `dirPaths`. -/
theorem valid_mem_dirPaths :
    ∀ (p : Path) (t : FTree), (findSubtree p t).isSome = true →
      p ∈ dirPaths t := by
  intro p
  induction p with
  | nil =>
    intro t _
    cases t with
    | node nm fs da ha subs => rw [dirPaths]; exact List.mem_cons_self _ _
  | cons n q ih =>
    intro t h
    cases t with
    | node nm fs da ha subs =>
      rw [findSubtree] at h
      cases hfind : (FTree.node nm fs da ha subs).subs.find?
          (fun c => c.name = n) with
      | none => rw [hfind] at h; simp at h
      | some c =>
        rw [hfind] at h
        have hc := ih c h
        have hmem := List.mem_of_find?_eq_some hfind
        have hname : c.name = n := by simpa using List.find?_some hfind
        rw [dirPaths]
        apply List.mem_cons_of_mem
        -- membership in dirPathsList subs
        change c ∈ subs at hmem
        clear hfind
        induction subs with
        | nil => exact absurd hmem (List.not_mem_nil c)
        | cons d rest ihs =>
          rw [dirPathsList]
          rcases List.mem_cons.mp hmem with h1 | h1
          · subst h1
            exact List.mem_append_left _
              (List.mem_map.mpr ⟨q, hc, by rw [hname]⟩)
          · exact List.mem_append_right _ (ihs h1)

/-! ## Well-formedness lemmas -/

theorem wf_node_iff (nm : String) (fs : List FileMeta)
    (da : Option DigestArtifact) (ha : Option HashArtifact)
    (subs : List FTree) :
    (FTree.node nm fs da ha subs).wf = true ↔
      (subs.map FTree.name).Nodup ∧ FTree.wfList subs = true := by
  show (decide (subs.map FTree.name).Nodup && FTree.wfList subs) = true ↔ _
  simp

theorem wfList_mem : ∀ (subs : List FTree), FTree.wfList subs = true →
    ∀ c ∈ subs, c.wf = true := by
  intro subs
  induction subs with
  | nil => intro _ c hc; exact absurd hc (List.not_mem_nil c)
  | cons d rest ih =>
    intro h c hc
    have h' : (d.wf && FTree.wfList rest) = true := h
    rw [Bool.and_eq_true] at h'
    rcases List.mem_cons.mp hc with h1 | h1
    · rw [h1]; exact h'.1
    · exact ih h'.2 c h1

theorem wf_findSubtree : ∀ (p : Path) (t u : FTree), t.wf = true →
    findSubtree p t = some u → u.wf = true := by
  intro p
  induction p with
  | nil => intro t u hw h; cases h; exact hw
  | cons n q ih =>
    intro t u hw h
    cases t with
    | node nm fs da ha subs =>
      rw [findSubtree] at h
      cases hfind : (FTree.node nm fs da ha subs).subs.find?
          (fun c => c.name = n) with
      | none => rw [hfind] at h; simp at h
      | some c =>
        rw [hfind] at h
        have hmem : c ∈ subs := List.mem_of_find?_eq_some hfind
        have hwl := ((wf_node_iff nm fs da ha subs).mp hw).2
        exact ih c u (wfList_mem subs hwl c hmem) h

/-- With distinct sibling names, `find?` by name returns the member itself. -/
theorem wf_find?_name {u : FTree} (hw : u.wf = true) :
    ∀ d ∈ u.subs, u.subs.find? (fun c => c.name = d.name) = some d := by
  cases u with
  | node nm fs da ha subs =>
    have hnd := ((wf_node_iff nm fs da ha subs).mp hw).1
    intro d hd
    show subs.find? (fun c => c.name = d.name) = some d
    change d ∈ subs at hd
    clear hw
    induction subs with
    | nil => exact absurd hd (List.not_mem_nil d)
    | cons e rest ih =>
      rcases List.mem_cons.mp hd with h1 | h1
      · subst h1
        rw [List.find?_cons]
        simp
      · have hne : e.name ≠ d.name := by
          intro hcontra
          have : e.name ∈ rest.map FTree.name :=
            List.mem_map.mpr ⟨d, h1, hcontra.symm⟩
          rw [List.map_cons] at hnd
          exact (List.nodup_cons.mp hnd).1 this
        rw [List.find?_cons_of_neg _ (by simpa using hne)]
        exact ih (List.nodup_cons.mp (by rw [List.map_cons] at hnd; exact hnd)).2 h1

/-- `visChildPaths` through the subtree's own child list. -/
theorem visChildPaths_eq {s : Settings} {t : FTree} {p : Path} {u : FTree}
    (hu : findSubtree p t = some u) :
    visChildPaths s t p =
      (u.subs.filter (fun c => !shouldIgnoreDirectory s c.name)).map
        (fun c => p ++ [c.name]) := by
  unfold visChildPaths
  rw [childDirs_eq t p u hu, List.filter_map]
  congr 1
  apply List.filter_congr
  intro c _
  simp [Function.comp, dirName_append_singleton]

/-! ## Leaf-scan lemmas -/

theorem sizeOf_pos (u : FTree) : 1 ≤ sizeOf u := by
  cases u with
  | node nm fs da ha subs => simp [FTree.node.sizeOf_spec]; omega

theorem sizeOf_mem_subs {c : FTree} {nm fs da ha} {subs : List FTree}
    (hc : c ∈ subs) : sizeOf c < sizeOf (FTree.node nm fs da ha subs) := by
  have := List.sizeOf_lt_of_mem hc
  simp [FTree.node.sizeOf_spec]
  omega

theorem mem_scanLeavesList (s : Settings) (p₀ q : Path) :
    ∀ subs : List FTree,
      (q ∈ scanLeavesList s subs p₀ ↔
        ∃ c ∈ subs, shouldIgnoreDirectory s c.name = false ∧
          q ∈ scanLeaves s c (p₀ ++ [c.name])) := by
  intro subs
  induction subs with
  | nil => rw [scanLeavesList]; simp
  | cons c rest ih =>
    rw [scanLeavesList, List.mem_append, ih]
    constructor
    · rintro (h1 | ⟨d, hd, hig, hq⟩)
      · by_cases hig : shouldIgnoreDirectory s c.name = true
        · rw [if_pos hig] at h1
          exact absurd h1 (List.not_mem_nil q)
        · rw [if_neg hig] at h1
          exact ⟨c, List.mem_cons_self c rest, by simpa using hig, h1⟩
      · exact ⟨d, List.mem_cons_of_mem c hd, hig, hq⟩
    · rintro ⟨d, hd, hig, hq⟩
      rcases List.mem_cons.mp hd with h1 | h1
      · subst h1
        left
        rw [if_neg (by simp [hig])]
        exact hq
      · right
        exact ⟨d, h1, hig, hq⟩

theorem scanLeaves_shape (s : Settings) :
    ∀ (N : Nat) (u : FTree), sizeOf u ≤ N →
      ∀ (p₀ q : Path), q ∈ scanLeaves s u p₀ → PrefixOf p₀ q := by
  intro N
  induction N with
  | zero =>
    intro u hsz
    exact absurd (le_trans (sizeOf_pos u) hsz) (by omega)
  | succ N ih =>
    intro u hsz p₀ q hq
    cases u with
    | node nm fs da ha subs =>
      rw [scanLeaves] at hq
      by_cases hvs : (subs.filter
          (fun c => !shouldIgnoreDirectory s c.name)).isEmpty = true
      · rw [if_pos hvs] at hq
        rcases List.mem_singleton.mp hq with rfl
        exact PrefixOf.refl q
      · rw [if_neg hvs] at hq
        obtain ⟨c, hc, hig, hq⟩ := (mem_scanLeavesList s p₀ q subs).mp hq
        have hcN : sizeOf c ≤ N := by
          have := @sizeOf_mem_subs _ nm fs da ha _ hc
          omega
        exact PrefixOf.trans ⟨[c.name], rfl⟩ (ih c hcN (p₀ ++ [c.name]) q hq)

/-- Scan soundness: every scanned path is reachable and has no non-ignored
subdirectory. -/
theorem scanLeaves_sound (s : Settings) (t : FTree) (hwf : t.wf = true) :
    ∀ (N : Nat) (u : FTree), sizeOf u ≤ N →
      ∀ (p₀ : Path), findSubtree p₀ t = some u → Vis s t p₀ →
        ∀ q ∈ scanLeaves s u p₀, Vis s t q ∧ visChildPaths s t q = [] := by
  intro N
  induction N with
  | zero =>
    intro u hsz
    exact absurd (le_trans (sizeOf_pos u) hsz) (by omega)
  | succ N ih =>
    intro u hsz p₀ hfind hvis q hq
    cases u with
    | node nm fs da ha subs =>
      rw [scanLeaves] at hq
      by_cases hvs : (subs.filter
          (fun c => !shouldIgnoreDirectory s c.name)).isEmpty = true
      · rw [if_pos hvs] at hq
        rcases List.mem_singleton.mp hq with rfl
        refine ⟨hvis, ?_⟩
        rw [visChildPaths_eq hfind]
        show ((FTree.node nm fs da ha subs).subs.filter _).map _ = []
        have : (FTree.node nm fs da ha subs).subs.filter
            (fun c => !shouldIgnoreDirectory s c.name) = [] :=
          List.isEmpty_iff.mp hvs
        rw [this]
        rfl
      · rw [if_neg hvs] at hq
        obtain ⟨c, hc, hig, hq⟩ := (mem_scanLeavesList s p₀ q subs).mp hq
        have hcN : sizeOf c ≤ N := by
          have := @sizeOf_mem_subs _ nm fs da ha _ hc
          omega
        have hcfind : findSubtree (p₀ ++ [c.name]) t = some c := by
          rw [findSubtree_append, hfind]
          show findSubtree [c.name] (FTree.node nm fs da ha subs) = some c
          rw [findSubtree]
          rw [wf_find?_name (wf_findSubtree p₀ t _ hwf hfind) c hc]
          rfl
        have hcvis : Vis s t (p₀ ++ [c.name]) := by
          apply hvis.of_visChild
          rw [visChildPaths_eq hfind]
          exact List.mem_map.mpr ⟨c, List.mem_filter.mpr ⟨hc, by simp [hig]⟩, rfl⟩
        exact ih c hcN (p₀ ++ [c.name]) hcfind hcvis q hq

/-- Scan completeness: every reachable directory below `p₀` with no
non-ignored subdirectory is scanned. -/
theorem scanLeaves_complete (s : Settings) (t : FTree) (hwf : t.wf = true) :
    ∀ (N : Nat) (u : FTree), sizeOf u ≤ N →
      ∀ (p₀ : Path), findSubtree p₀ t = some u →
        ∀ q, Vis s t q → PrefixOf p₀ q → visChildPaths s t q = [] →
          q ∈ scanLeaves s u p₀ := by
  intro N
  induction N with
  | zero =>
    intro u hsz
    exact absurd (le_trans (sizeOf_pos u) hsz) (by omega)
  | succ N ih =>
    intro u hsz p₀ hfind q hqvis hpq hleaf
    cases u with
    | node nm fs da ha subs =>
      rw [scanLeaves]
      by_cases heq : p₀ = q
      · subst heq
        have : (subs.filter (fun c => !shouldIgnoreDirectory s c.name)) = [] := by
          rw [visChildPaths_eq hfind] at hleaf
          exact List.map_eq_nil.mp hleaf
        rw [if_pos (by rw [this]; rfl)]
        exact List.mem_singleton.mpr rfl
      · have hproper : ProperPrefixOf p₀ q :=
          (properPrefixOf_iff p₀ q).mpr ⟨hpq, heq⟩
        obtain ⟨cp, hcp, hcpq, hcplen⟩ := vis_step hqvis hproper
        rw [visChildPaths_eq hfind] at hcp
        obtain ⟨c, hcf, hceq⟩ := List.mem_map.mp hcp
        have hcf2 : c ∈ subs.filter (fun c => !shouldIgnoreDirectory s c.name) :=
          hcf
        obtain ⟨hcmem0, hcig⟩ := List.mem_filter.mp hcf
        have hcmem : c ∈ subs := hcmem0
        have hvs : ¬ ((subs.filter
            (fun c => !shouldIgnoreDirectory s c.name)).isEmpty = true) := by
          intro hcontra
          rw [List.isEmpty_iff.mp hcontra] at hcf2
          exact List.not_mem_nil c hcf2
        rw [if_neg hvs]
        apply (mem_scanLeavesList s p₀ q subs).mpr
        refine ⟨c, hcmem, by simpa using hcig, ?_⟩
        have hcN : sizeOf c ≤ N := by
          have := @sizeOf_mem_subs _ nm fs da ha _ hcmem
          omega
        have hcfind : findSubtree (p₀ ++ [c.name]) t = some c := by
          rw [findSubtree_append, hfind]
          show findSubtree [c.name] (FTree.node nm fs da ha subs) = some c
          rw [findSubtree]
          rw [wf_find?_name (wf_findSubtree p₀ t _ hwf hfind) c hcmem]
          rfl
        apply ih c hcN (p₀ ++ [c.name]) hcfind q hqvis _ hleaf
        rw [← hceq] at hcpq
        exact hcpq

/-- Scan results are distinct (distinct sibling names make the per-child
blocks disjoint). -/
theorem scanLeaves_nodup (s : Settings) :
    ∀ (N : Nat) (u : FTree), sizeOf u ≤ N → u.wf = true →
      ∀ (p₀ : Path), (scanLeaves s u p₀).Nodup := by
  intro N
  induction N with
  | zero =>
    intro u hsz
    exact absurd (le_trans (sizeOf_pos u) hsz) (by omega)
  | succ N ih =>
    intro u hsz hwf p₀
    cases u with
    | node nm fs da ha subs =>
      rw [scanLeaves]
      by_cases hvs : (subs.filter
          (fun c => !shouldIgnoreDirectory s c.name)).isEmpty = true
      · rw [if_pos hvs]
        exact List.nodup_singleton p₀
      · rw [if_neg hvs]
        clear hvs
        have hnames := ((wf_node_iff nm fs da ha subs).mp hwf).1
        have hwfl := ((wf_node_iff nm fs da ha subs).mp hwf).2
        have hsubs : ∀ c ∈ subs, sizeOf c ≤ N := by
          intro c hc
          have := @sizeOf_mem_subs _ nm fs da ha _ hc
          omega
        clear hsz hwf
        induction subs with
        | nil => rw [scanLeavesList]; exact List.nodup_nil
        | cons c rest ihs =>
          rw [scanLeavesList]
          apply List.Nodup.append
          · by_cases hig : shouldIgnoreDirectory s c.name = true
            · rw [if_pos hig]; exact List.nodup_nil
            · rw [if_neg hig]
              exact ih c (hsubs c (List.mem_cons_self c rest))
                (wfList_mem _ hwfl c (List.mem_cons_self c rest)) _
          · apply ihs
            · rw [List.map_cons] at hnames
              exact (List.nodup_cons.mp hnames).2
            · have h' : (c.wf && FTree.wfList rest) = true := hwfl
              exact (Bool.and_eq_true_iff.mp h').2
            · intro d hd; exact hsubs d (List.mem_cons_of_mem c hd)
          · -- disjointness: the `c`-block extends `p₀ ++ [c.name]`, the rest
            -- extends `p₀ ++ [d.name]` for a different name `d`
            intro q hq1 hq2
            by_cases hig : shouldIgnoreDirectory s c.name = true
            · rw [if_pos hig] at hq1
              exact absurd hq1 (List.not_mem_nil q)
            · rw [if_neg hig] at hq1
              have h1 : PrefixOf (p₀ ++ [c.name]) q :=
                scanLeaves_shape s (sizeOf c) c le_rfl _ q hq1
              obtain ⟨d, hd, hdig, hq2⟩ := (mem_scanLeavesList s p₀ q rest).mp hq2
              have h2 : PrefixOf (p₀ ++ [d.name]) q :=
                scanLeaves_shape s (sizeOf d) d le_rfl _ q hq2
              have : p₀ ++ [c.name] = p₀ ++ [d.name] := by
                apply prefixOf_antisymm
                  (prefixOf_of_prefixOf_prefixOf h1 h2 (by simp))
                simp
              have hcd : c.name = d.name := by simpa using this
              rw [List.map_cons] at hnames
              exact (List.nodup_cons.mp hnames).1
                (List.mem_map.mpr ⟨d, hd, hcd.symm⟩)

/-! ## The parent-promotion loop -/

/-- Every directory's non-ignored subdirectories appear strictly before it. -/
def childrenBefore (s : Settings) (t : FTree) (V : List Path) : Prop :=
  ∀ (i : Nat) (hi : i < V.length),
    ∀ c ∈ visChildPaths s t (V.get ⟨i, hi⟩), c ∈ V.take i

/-- Invariant of the promotion loop, relating the virtual order `V` (the
emitted order plus the `next_level` being built) and the `processed` set
`pa`. -/
structure OrderInv (s : Settings) (t : FTree) (V pa : List Path) : Prop where
  set_eq : ∀ p : Path, p ∈ pa ↔ p ∈ V
  nodup : V.Nodup
  pa_nodup : pa.Nodup
  vis : ∀ x ∈ V, Vis s t x
  tclosed : ∀ x ∈ V, ∀ y, Vis s t y → ProperPrefixOf x y → y ∈ V
  before : childrenBefore s t V
  root_last : ([] : Path) ∈ V → V.getLast? = some []

theorem childrenBefore_append_one {s : Settings} {t : FTree} {V : List Path}
    {P : Path} (h : childrenBefore s t V)
    (hP : ∀ c ∈ visChildPaths s t P, c ∈ V) :
    childrenBefore s t (V ++ [P]) := by
  intro i hi c hc
  rw [List.length_append, List.length_singleton] at hi
  by_cases hiV : i < V.length
  · have hget : (V ++ [P]).get ⟨i, by simp; omega⟩ = V.get ⟨i, hiV⟩ := by
      rw [List.get_append]
    rw [hget] at hc
    have := h i hiV c hc
    rw [List.take_append_eq_append_take]
    exact List.mem_append_left _ this
  · have hiEq : i = V.length := by omega
    subst hiEq
    have hget : (V ++ [P]).get ⟨V.length, by simp⟩ = P := by
      simp
    rw [hget] at hc
    rw [List.take_append_eq_append_take]
    simp
    exact hP c hc

theorem orderInv_append_one {s : Settings} {t : FTree} {V pa : List Path}
    {P : Path} (hinv : OrderInv s t V pa)
    (hPvis : Vis s t P) (hPpa : P ∉ pa)
    (hPacp : ∀ c ∈ visChildPaths s t P, c ∈ pa) :
    OrderInv s t (V ++ [P]) (pa ++ [P]) := by
  have hPV : P ∉ V := fun h => hPpa ((hinv.set_eq P).mpr h)
  refine ⟨?_, ?_, ?_, ?_, ?_, ?_, ?_⟩
  · intro p
    simp only [List.mem_append, List.mem_singleton]
    rw [hinv.set_eq p]
  · rw [List.nodup_append]
    exact ⟨hinv.nodup, List.nodup_singleton P, by
      intro x hx hx2
      rw [List.mem_singleton] at hx2
      exact hPV (hx2 ▸ hx)⟩
  · rw [List.nodup_append]
    exact ⟨hinv.pa_nodup, List.nodup_singleton P, by
      intro x hx hx2
      rw [List.mem_singleton] at hx2
      exact hPpa (hx2 ▸ hx)⟩
  · intro x hx
    rcases List.mem_append.mp hx with h | h
    · exact hinv.vis x h
    · rw [List.mem_singleton] at h
      exact h ▸ hPvis
  · intro x hx y hyvis hxy
    rcases List.mem_append.mp hx with h | h
    · exact List.mem_append_left _ (hinv.tclosed x h y hyvis hxy)
    · rw [List.mem_singleton] at h
      subst h
      -- descent from P toward y through a completed child
      obtain ⟨c, hc, hcy, hclen⟩ := vis_step hyvis hxy
      have hcV : c ∈ V := (hinv.set_eq c).mp (hPacp c hc)
      by_cases hcy' : c = y
      · exact List.mem_append_left _ (hcy' ▸ hcV)
      · exact List.mem_append_left _
          (hinv.tclosed c hcV y hyvis ((properPrefixOf_iff c y).mpr ⟨hcy, hcy'⟩))
  · exact childrenBefore_append_one hinv.before
      (fun c hc => (hinv.set_eq c).mp (hPacp c hc))
  · intro hroot
    rcases List.mem_append.mp hroot with h | h
    · -- the root is already in V, so every reachable directory is in V and
      -- P could not have been appended
      exfalso
      have hPne : P ≠ [] := fun hP0 => hPV (hP0 ▸ h)
      have : P ∈ V :=
        hinv.tclosed [] h P hPvis ((properPrefixOf_iff [] P).mpr ⟨⟨P, rfl⟩, fun hc => hPne hc.symm⟩)
      exact hPV this
    · rw [List.mem_singleton] at h
      rw [← h]
      exact List.getLast?_concat V

/-- One `_get_next_level_parents` candidate step preserves the invariant. -/
theorem nextLevelStep_preserves {s : Settings} {t : FTree} {order : List Path}
    (acc : List Path × List Path) (d : Path)
    (hinv : OrderInv s t (order ++ acc.1) acc.2) (hd : d ∈ acc.2) :
    OrderInv s t (order ++ (nextLevelStep s t acc d).1)
      (nextLevelStep s t acc d).2 := by
  unfold nextLevelStep
  by_cases hd0 : d.isEmpty = true
  · rw [if_pos hd0]; exact hinv
  · rw [if_neg hd0]
    by_cases hskip : (acc.2.contains d.dropLast
        || shouldIgnoreDirectory s (dirName t d.dropLast)) = true
    · rw [if_pos hskip]; exact hinv
    · rw [if_neg hskip]
      by_cases happ : (allChildrenProcessed s t d.dropLast acc.2
          && !(acc.1.contains d.dropLast)) = true
      · rw [if_pos happ]
        simp only []
        rw [Bool.or_eq_true] at hskip
        push_neg at hskip
        have hnpa : d.dropLast ∉ acc.2 := by
          intro hmem
          exact hskip.1 (by simpa using hmem)
        have hvisd : Vis s t d :=
          hinv.vis d ((hinv.set_eq d).mp hd)
        have hvisP : Vis s t d.dropLast :=
          hvisd.of_prefixOf (prefixOf_dropLast d)
        have hchildren : ∀ c ∈ visChildPaths s t d.dropLast, c ∈ acc.2 :=
          allChildrenProcessed_iff.mp (Bool.and_eq_true_iff.mp happ).1
        have := orderInv_append_one hinv hvisP hnpa hchildren
        rw [List.append_assoc] at this
        exact this
      · rw [if_neg happ]; exact hinv

theorem nextLevelStep_mono {s : Settings} {t : FTree}
    (acc : List Path × List Path) (d : Path) :
    (∀ x ∈ acc.1, x ∈ (nextLevelStep s t acc d).1) ∧
      (∀ x ∈ acc.2, x ∈ (nextLevelStep s t acc d).2) := by
  unfold nextLevelStep
  by_cases hd0 : d.isEmpty = true
  · rw [if_pos hd0]; exact ⟨fun x h => h, fun x h => h⟩
  · rw [if_neg hd0]
    by_cases hskip : (acc.2.contains d.dropLast
        || shouldIgnoreDirectory s (dirName t d.dropLast)) = true
    · rw [if_pos hskip]; exact ⟨fun x h => h, fun x h => h⟩
    · rw [if_neg hskip]
      by_cases happ : (allChildrenProcessed s t d.dropLast acc.2
          && !(acc.1.contains d.dropLast)) = true
      · rw [if_pos happ]
        exact ⟨fun x h => List.mem_append_left _ h,
               fun x h => List.mem_append_left _ h⟩
      · rw [if_neg happ]; exact ⟨fun x h => h, fun x h => h⟩

theorem nextLevelStep_proc_eq {s : Settings} {t : FTree} {proc : List Path}
    (acc : List Path × List Path) (d : Path)
    (h : acc.2 = proc ++ acc.1) :
    (nextLevelStep s t acc d).2 = proc ++ (nextLevelStep s t acc d).1 := by
  unfold nextLevelStep
  by_cases hd0 : d.isEmpty = true
  · rw [if_pos hd0]; exact h
  · rw [if_neg hd0]
    by_cases hskip : (acc.2.contains d.dropLast
        || shouldIgnoreDirectory s (dirName t d.dropLast)) = true
    · rw [if_pos hskip]; exact h
    · rw [if_neg hskip]
      by_cases happ : (allChildrenProcessed s t d.dropLast acc.2
          && !(acc.1.contains d.dropLast)) = true
      · rw [if_pos happ]
        show acc.2 ++ [d.dropLast] = proc ++ (acc.1 ++ [d.dropLast])
        rw [h, List.append_assoc]
      · rw [if_neg happ]; exact h

theorem fold_mono {s : Settings} {t : FTree} :
    ∀ (cur : List Path) (acc : List Path × List Path),
      (∀ x ∈ acc.1, x ∈ (cur.foldl (nextLevelStep s t) acc).1) ∧
        (∀ x ∈ acc.2, x ∈ (cur.foldl (nextLevelStep s t) acc).2) := by
  intro cur
  induction cur with
  | nil => exact fun acc => ⟨fun x h => h, fun x h => h⟩
  | cons d rest ih =>
    intro acc
    rw [List.foldl_cons]
    constructor
    · intro x h
      exact (ih (nextLevelStep s t acc d)).1 x ((nextLevelStep_mono acc d).1 x h)
    · intro x h
      exact (ih (nextLevelStep s t acc d)).2 x ((nextLevelStep_mono acc d).2 x h)

theorem fold_proc_eq {s : Settings} {t : FTree} {proc : List Path} :
    ∀ (cur : List Path) (acc : List Path × List Path),
      acc.2 = proc ++ acc.1 →
      (cur.foldl (nextLevelStep s t) acc).2
        = proc ++ (cur.foldl (nextLevelStep s t) acc).1 := by
  intro cur
  induction cur with
  | nil => exact fun acc h => h
  | cons d rest ih =>
    intro acc h
    rw [List.foldl_cons]
    exact ih _ (nextLevelStep_proc_eq acc d h)

theorem fold_preserves {s : Settings} {t : FTree} {order : List Path} :
    ∀ (cur : List Path) (acc : List Path × List Path),
      OrderInv s t (order ++ acc.1) acc.2 →
      (∀ d ∈ cur, d ∈ acc.2) →
      OrderInv s t (order ++ (cur.foldl (nextLevelStep s t) acc).1)
        (cur.foldl (nextLevelStep s t) acc).2 := by
  intro cur
  induction cur with
  | nil => exact fun acc h _ => h
  | cons d rest ih =>
    intro acc hinv hcur
    rw [List.foldl_cons]
    apply ih
    · exact nextLevelStep_preserves acc d hinv (hcur d (List.mem_cons_self d rest))
    · intro e he
      exact (nextLevelStep_mono acc d).2 e
        (hcur e (List.mem_cons_of_mem d he))

/-- If some current-level entry is a child of `P` and all of `P`'s visible
children are already processed, the fold promotes `P`. -/
theorem fold_promotes {s : Settings} {t : FTree} {P : Path} :
    ∀ (cur : List Path) (acc : List Path × List Path) (c : Path),
      c ∈ cur → c ≠ [] → P = c.dropLast →
      shouldIgnoreDirectory s (dirName t P) = false →
      allChildrenProcessed s t P acc.2 = true →
      (∀ x ∈ acc.1, x ∈ acc.2) →
      P ∈ (cur.foldl (nextLevelStep s t) acc).2 := by
  intro cur
  induction cur with
  | nil => intro acc c hc; exact absurd hc (List.not_mem_nil c)
  | cons d rest ih =>
    intro acc c hc hcne hPc hign hacp hsub
    rw [List.foldl_cons]
    rcases List.mem_cons.mp hc with h1 | h1
    · -- the step that examines `c` either finds `P` processed or promotes it
      have hPd : P = d.dropLast := h1 ▸ hPc
      have hdne : d ≠ [] := h1 ▸ hcne
      by_cases hmem : P ∈ acc.2
      · exact (fold_mono rest _).2 P ((nextLevelStep_mono acc d).2 P hmem)
      · have hstep : P ∈ (nextLevelStep s t acc d).2 := by
          unfold nextLevelStep
          rw [if_neg (by simpa using hdne)]
          have hc1 : ¬ ((acc.2.contains d.dropLast
              || shouldIgnoreDirectory s (dirName t d.dropLast)) = true) := by
            rw [Bool.or_eq_true]
            push_neg
            rw [← hPd]
            exact ⟨by simpa using hmem, by simp [hign]⟩
          rw [if_neg hc1]
          have hna : acc.1.contains d.dropLast = false := by
            rw [← hPd]
            by_cases h : P ∈ acc.1
            · exact absurd (hsub P h) hmem
            · simpa using h
          have happ : (allChildrenProcessed s t d.dropLast acc.2
              && !(acc.1.contains d.dropLast)) = true := by
            rw [hna, ← hPd]
            simp [hacp]
          rw [if_pos happ]
          show P ∈ acc.2 ++ [d.dropLast]
          rw [← hPd]
          exact List.mem_append_right _ (List.mem_singleton_self P)
        exact (fold_mono rest _).2 P hstep
    · apply ih (nextLevelStep s t acc d) c h1 hcne hPc hign
      · exact allChildrenProcessed_mono
          (fun x hx => (nextLevelStep_mono acc d).2 x hx) hacp
      · intro x hx
        -- next-accumulator elements stay inside the processed set
        unfold nextLevelStep at hx ⊢
        by_cases hd0 : d.isEmpty = true
        · rw [if_pos hd0] at hx ⊢; exact hsub x hx
        · rw [if_neg hd0] at hx ⊢
          by_cases hskip : (acc.2.contains d.dropLast
              || shouldIgnoreDirectory s (dirName t d.dropLast)) = true
          · rw [if_pos hskip] at hx ⊢; exact hsub x hx
          · rw [if_neg hskip] at hx ⊢
            by_cases happ : (allChildrenProcessed s t d.dropLast acc.2
                && !(acc.1.contains d.dropLast)) = true
            · rw [if_pos happ] at hx ⊢
              rcases List.mem_append.mp hx with h | h
              · exact List.mem_append_left _ (hsub x h)
              · exact List.mem_append_right _ h
            · rw [if_neg happ] at hx ⊢; exact hsub x hx

theorem heightAt_pos {s : Settings} {t : FTree} {p : Path} (hp : Vis s t p) :
    1 ≤ heightAt s t p := by
  unfold heightAt
  cases hfind : findSubtree p t with
  | none => exact absurd hp.1 (by rw [hfind]; simp)
  | some u =>
    cases u with
    | node nm fs da ha subs =>
      show 1 ≤ visHeight s (FTree.node nm fs da ha subs)
      have : visHeight s (FTree.node nm fs da ha subs)
          = 1 + visHeightList s subs := rfl
      omega

/-- When no reachable directory is still waiting on its children, the
emitted order is complete. -/
theorem complete_of_no_pending {s : Settings} {t : FTree} {V pa : List Path}
    (hinv : OrderInv s t V pa)
    (hnp : ∀ P, Vis s t P → P ∉ pa →
      (∀ c ∈ visChildPaths s t P, c ∈ pa) → False) :
    ∀ P, Vis s t P → P ∈ V := by
  have main : ∀ (h : Nat) (P : Path), Vis s t P → heightAt s t P ≤ h → P ∈ V := by
    intro h
    induction h with
    | zero =>
      intro P hP hle
      exact absurd (le_trans (heightAt_pos hP) hle) (by omega)
    | succ h ih =>
      intro P hP hle
      by_cases hmem : P ∈ pa
      · exact (hinv.set_eq P).mp hmem
      · exfalso
        apply hnp P hP hmem
        intro c hc
        have hcvis := hP.of_visChild hc
        have hch := heightAt_child_lt hc
        apply (hinv.set_eq c).mpr
        exact ih c hcvis (by omega)
  exact fun P hP => main (heightAt s t P) P hP le_rfl

theorem analysisLoop_cur_nil (s : Settings) (t : FTree) :
    ∀ (fuel : Nat) (order proc : List Path),
      analysisLoop s t fuel order proc [] = order := by
  intro fuel order proc
  cases fuel with
  | zero => rfl
  | succ f => rw [analysisLoop]; rfl

theorem pa_length_le_countDirs {s : Settings} {t : FTree} {V pa : List Path}
    (hinv : OrderInv s t V pa) : pa.length ≤ countDirs t := by
  unfold countDirs
  apply List.Subperm.length_le
  apply List.Nodup.subperm hinv.pa_nodup
  intro x hx
  exact valid_mem_dirPaths x t
    (hinv.vis x ((hinv.set_eq x).mp hx)).1

/-- The promotion loop, run with enough fuel, emits an order satisfying the
invariant that also contains every reachable directory. -/
theorem analysisLoop_spec (s : Settings) (t : FTree) :
    ∀ (fuel : Nat) (order proc cur : List Path),
      OrderInv s t order proc →
      (∀ d ∈ cur, d ∈ proc) →
      (∀ P, Vis s t P → P ∉ proc →
        (∀ c ∈ visChildPaths s t P, c ∈ proc) →
        ∃ c, c ∈ visChildPaths s t P ∧ c ∈ cur) →
      countDirs t + 1 ≤ fuel + proc.length →
      (∃ pa, OrderInv s t (analysisLoop s t fuel order proc cur) pa) ∧
        (∀ x ∈ order, x ∈ analysisLoop s t fuel order proc cur) ∧
        (∀ P, Vis s t P → P ∈ analysisLoop s t fuel order proc cur) := by
  intro fuel
  induction fuel with
  | zero =>
    intro order proc cur hinv hcur hW hfuel
    exact absurd (le_trans hfuel (by simpa using pa_length_le_countDirs hinv))
      (by omega)
  | succ fuel ih =>
    intro order proc cur hinv hcur hW hfuel
    rw [analysisLoop]
    by_cases hcure : cur.isEmpty = true
    · rw [if_pos hcure]
      have hc0 : cur = [] := List.isEmpty_iff.mp hcure
      subst hc0
      refine ⟨⟨proc, hinv⟩, fun x h => h, ?_⟩
      apply complete_of_no_pending hinv
      intro P hP hnp hch
      obtain ⟨c, _, hcc⟩ := hW P hP hnp hch
      exact List.not_mem_nil c hcc
    · rw [if_neg hcure]
      have hinv0 : OrderInv s t (order ++ ([] : List Path)) proc := by
        rw [List.append_nil]; exact hinv
      have hfold := @fold_preserves s t order cur ([], proc) hinv0 hcur
      have hpeq : (nextLevelParents s t cur proc).2
          = proc ++ (nextLevelParents s t cur proc).1 :=
        fold_proc_eq cur ([], proc) (by rw [List.append_nil])
      -- promotion of fully-processed parents with a child in `cur`
      have hpromote : ∀ P, Vis s t P →
          (∀ c ∈ visChildPaths s t P, c ∈ proc) →
          (∃ c, c ∈ visChildPaths s t P ∧ c ∈ cur) →
          P ∈ (nextLevelParents s t cur proc).2 := by
        rintro P hP hchild ⟨c, hc, hccur⟩
        obtain ⟨n, hshape⟩ := mem_childDirs_shape (mem_visChildPaths.mp hc).1
        apply fold_promotes cur ([], proc) c hccur
          (by rw [hshape]; simp)
          (by rw [hshape, List.dropLast_concat])
          (hP.2 P (PrefixOf.refl P))
          (allChildrenProcessed_iff.mpr hchild)
          (by intro x hx; exact absurd hx (List.not_mem_nil x))
      by_cases hnext : (nextLevelParents s t cur proc).1 = []
      · rw [hnext, List.append_nil, analysisLoop_cur_nil]
        have hproc' : (nextLevelParents s t cur proc).2 = proc := by
          rw [hpeq, hnext, List.append_nil]
        refine ⟨⟨proc, hinv⟩, fun x h => h, ?_⟩
        apply complete_of_no_pending hinv
        intro P hP hnp hch
        by_cases hall : ∀ c ∈ visChildPaths s t P, c ∈ proc
        · obtain ⟨c, hc, hccur⟩ := hW P hP hnp hall
          have := hpromote P hP hall ⟨c, hc, hccur⟩
          rw [hproc'] at this
          exact hnp this
        · push_neg at hall
          obtain ⟨c, hc, hcp⟩ := hall
          exact hcp (hch c hc)
      · have hWnew : ∀ P, Vis s t P → P ∉ (nextLevelParents s t cur proc).2 →
            (∀ c ∈ visChildPaths s t P, c ∈ (nextLevelParents s t cur proc).2) →
            ∃ c, c ∈ visChildPaths s t P ∧
              c ∈ (nextLevelParents s t cur proc).1 := by
          intro P hP hnp hch
          by_cases hall : ∀ c ∈ visChildPaths s t P, c ∈ proc
          · exfalso
            obtain ⟨c, hc, hccur⟩ := hW P hP
              (fun hmem => hnp (by rw [hpeq]; exact List.mem_append_left _ hmem))
              hall
            exact hnp (hpromote P hP hall ⟨c, hc, hccur⟩)
          · push_neg at hall
            obtain ⟨c, hc, hcp⟩ := hall
            refine ⟨c, hc, ?_⟩
            have := hch c hc
            rw [hpeq] at this
            rcases List.mem_append.mp this with h | h
            · exact absurd h hcp
            · exact h
        have hlen : 1 ≤ (nextLevelParents s t cur proc).1.length := by
          cases hne : (nextLevelParents s t cur proc).1 with
          | nil => exact absurd hne hnext
          | cons a l => simp
        have := ih (order ++ (nextLevelParents s t cur proc).1)
          (nextLevelParents s t cur proc).2
          (nextLevelParents s t cur proc).1
          hfold
          (by intro d hd; rw [hpeq]; exact List.mem_append_right _ hd)
          hWnew
          (by
            rw [hpeq, List.length_append]
            omega)
        refine ⟨this.1, ?_, this.2.2⟩
        intro x hx
        exact this.2.1 x (List.mem_append_left _ hx)

/-! ## Initial state of the loop -/

theorem vis_nil {s : Settings} {t : FTree}
    (hroot : shouldIgnoreDirectory s t.name = false) : Vis s t [] := by
  refine ⟨rfl, ?_⟩
  intro q hq
  obtain ⟨r, hr⟩ := hq
  have hq0 : q = [] := by
    cases q with
    | nil => rfl
    | cons a l => simp at hr
  rw [hq0]
  exact hroot

theorem sortPaths_perm (l : List Path) : List.Perm (sortPaths l) l :=
  List.perm_insertionSort _ l

theorem mem_findLeafDirectories {s : Settings} {t : FTree}
    (hwf : t.wf = true) (hroot : shouldIgnoreDirectory s t.name = false)
    (q : Path) :
    q ∈ findLeafDirectories s t ↔ Vis s t q ∧ visChildPaths s t q = [] := by
  unfold findLeafDirectories
  rw [if_neg (by simp [hroot])]
  rw [(sortPaths_perm _).mem_iff]
  constructor
  · intro h
    exact scanLeaves_sound s t hwf (sizeOf t) t le_rfl [] rfl
      (vis_nil hroot) q h
  · rintro ⟨hvis, hleaf⟩
    exact scanLeaves_complete s t hwf (sizeOf t) t le_rfl [] rfl q hvis
      ⟨q, rfl⟩ hleaf

theorem findLeafDirectories_nodup {s : Settings} {t : FTree}
    (hwf : t.wf = true) : (findLeafDirectories s t).Nodup := by
  unfold findLeafDirectories
  by_cases hroot : shouldIgnoreDirectory s t.name = true
  · rw [if_pos (by simp [hroot])]
    exact List.nodup_nil
  · rw [if_neg (by simpa using hroot)]
    exact ((sortPaths_perm _).nodup_iff).mpr
      (scanLeaves_nodup s (sizeOf t) t le_rfl hwf [])

theorem findLeafDirectories_root_singleton {s : Settings} {t : FTree}
    (hwf : t.wf = true) (hroot : shouldIgnoreDirectory s t.name = false)
    (h : ([] : Path) ∈ findLeafDirectories s t) :
    findLeafDirectories s t = [[]] := by
  have hleafroot := ((mem_findLeafDirectories hwf hroot []).mp h).2
  have hall : ∀ q ∈ findLeafDirectories s t, q = ([] : Path) := by
    intro q hq
    obtain ⟨hqvis, _⟩ := (mem_findLeafDirectories hwf hroot q).mp hq
    by_contra hne
    obtain ⟨c, hc, _, _⟩ := vis_step hqvis
      ((properPrefixOf_iff [] q).mpr ⟨⟨q, rfl⟩, fun h => hne h.symm⟩)
    rw [hleafroot] at hc
    exact List.not_mem_nil c hc
  have hnd := @findLeafDirectories_nodup s _ hwf
  cases hl : findLeafDirectories s t with
  | nil => rw [hl] at h; exact absurd h (List.not_mem_nil _)
  | cons a rest =>
    rw [hl] at hall hnd
    have ha : a = [] := hall a (List.mem_cons_self a rest)
    cases rest with
    | nil => rw [ha]
    | cons b rest' =>
      exfalso
      have hb : b = [] := hall b (List.mem_cons_of_mem a
        (List.mem_cons_self b rest'))
      have hni := (List.nodup_cons.mp hnd).1
      rw [ha, hb] at hni
      exact hni (List.mem_cons_self [] rest')

theorem orderInv_init {s : Settings} {t : FTree}
    (hwf : t.wf = true) (hroot : shouldIgnoreDirectory s t.name = false) :
    OrderInv s t (findLeafDirectories s t) (findLeafDirectories s t) := by
  refine ⟨fun p => Iff.rfl, findLeafDirectories_nodup hwf,
    findLeafDirectories_nodup hwf, ?_, ?_, ?_, ?_⟩
  · intro x hx
    exact ((mem_findLeafDirectories hwf hroot x).mp hx).1
  · intro x hx y hyvis hxy
    exfalso
    obtain ⟨c, hc, _, _⟩ := vis_step hyvis hxy
    rw [((mem_findLeafDirectories hwf hroot x).mp hx).2] at hc
    exact List.not_mem_nil c hc
  · intro i hi c hc
    exfalso
    have hmem : (findLeafDirectories s t).get ⟨i, hi⟩ ∈ findLeafDirectories s t :=
      List.get_mem _ _ _
    rw [((mem_findLeafDirectories hwf hroot _).mp hmem).2] at hc
    exact List.not_mem_nil c hc
  · intro h
    rw [findLeafDirectories_root_singleton hwf hroot h]
    rfl

/-- The two shapes of `get_analysis_order`. -/
theorem getAnalysisOrder_ignored_root {s : Settings} {t : FTree}
    (hroot : shouldIgnoreDirectory s t.name = true) :
    getAnalysisOrder s t = [[]] := by
  have h1 : findLeafDirectories s t = [] := by
    unfold findLeafDirectories
    rw [if_pos hroot]
  simp only [getAnalysisOrder, h1, analysisLoop_cur_nil]
  rfl

theorem getAnalysisOrder_visible_root {s : Settings} {t : FTree}
    (hwf : t.wf = true) (hroot : shouldIgnoreDirectory s t.name = false) :
    ∃ pa, OrderInv s t (getAnalysisOrder s t) pa ∧
      (∀ P, Vis s t P → P ∈ getAnalysisOrder s t) := by
  have hspec := analysisLoop_spec s t (countDirs t + 1)
    (findLeafDirectories s t) (findLeafDirectories s t)
    (findLeafDirectories s t)
    (orderInv_init hwf hroot)
    (fun d hd => hd)
    (by
      intro P hP hnp hch
      by_cases hc0 : visChildPaths s t P = []
      · exact absurd ((mem_findLeafDirectories hwf hroot P).mpr ⟨hP, hc0⟩) hnp
      · cases hcp : visChildPaths s t P with
        | nil => exact absurd hcp hc0
        | cons c rest =>
          have hcmem : c ∈ visChildPaths s t P := by
            rw [hcp]
            exact List.mem_cons_self c rest
          exact ⟨c, List.mem_cons_self c rest, hch c hcmem⟩)
    (by omega)
  obtain ⟨⟨pa, hinv⟩, hext, hcomp⟩ := hspec
  have hroot_in : ([] : Path) ∈ analysisLoop s t (countDirs t + 1)
      (findLeafDirectories s t) (findLeafDirectories s t)
      (findLeafDirectories s t) := hcomp [] (vis_nil hroot)
  have hcont : (analysisLoop s t (countDirs t + 1)
      (findLeafDirectories s t) (findLeafDirectories s t)
      (findLeafDirectories s t)).contains ([] : Path) = true := by
    simp only [List.contains]
    exact List.elem_eq_true_of_mem hroot_in
  have hGA : getAnalysisOrder s t = analysisLoop s t (countDirs t + 1)
      (findLeafDirectories s t) (findLeafDirectories s t)
      (findLeafDirectories s t) := by
    simp only [getAnalysisOrder]
    rw [if_pos hcont]
  rw [hGA]
  exact ⟨pa, hinv, hcomp⟩

/-! ## Consequences of the invariant: order-position lemmas -/

theorem take_get_eq {α : Type _} :
    ∀ (l : List α) (i k : Nat) (hk : k < (l.take i).length)
      (hkl : k < l.length), (l.take i).get ⟨k, hk⟩ = l.get ⟨k, hkl⟩ := by
  intro l
  induction l with
  | nil =>
    intro i k hk hkl
    simp at hkl
  | cons a l ih =>
    intro i k hk hkl
    cases i with
    | zero => simp at hk
    | succ i =>
      cases k with
      | zero => rfl
      | succ k =>
        have hk' : k < (l.take i).length := by
          rw [List.take_succ_cons, List.length_cons] at hk
          omega
        have hkl' : k < l.length := by
          rw [List.length_cons] at hkl
          omega
        exact ih i k hk' hkl'

theorem mem_take_get {α : Type _} {l : List α} {i : Nat} {c : α}
    (h : c ∈ l.take i) :
    ∃ k, ∃ hk : k < l.length, k < i ∧ l.get ⟨k, hk⟩ = c := by
  obtain ⟨⟨k, hk⟩, hke⟩ := List.get_of_mem h
  have hkl : k < l.length := by
    have h2 := hk
    rw [List.length_take] at h2
    omega
  have hki : k < i := by
    have h2 := hk
    rw [List.length_take] at h2
    omega
  exact ⟨k, hkl, hki, by rw [← hke]; exact (take_get_eq l i k hk hkl).symm⟩

/-- Bounded-depth version: in any list satisfying the invariant, a proper
ancestor sits strictly later than each of its descendants. -/
theorem descendants_before {s : Settings} {t : FTree} {V pa : List Path}
    (hinv : OrderInv s t V pa) (d : Nat) :
    ∀ (i j : Nat) (hi : i < V.length) (hj : j < V.length),
      ProperPrefixOf (V.get ⟨i, hi⟩) (V.get ⟨j, hj⟩) →
      (V.get ⟨j, hj⟩).length ≤ (V.get ⟨i, hi⟩).length + d → j < i := by
  induction d with
  | zero =>
    intro i j hi hj hpp hlen
    exfalso
    obtain ⟨n, q, he⟩ := hpp
    have h2 : (V.get ⟨j, hj⟩).length =
        (V.get ⟨i, hi⟩).length + q.length + 1 := by
      rw [he, List.length_append, List.length_cons]
      omega
    omega
  | succ d ih =>
    intro i j hi hj hpp hlen
    have hyvis : Vis s t (V.get ⟨j, hj⟩) := hinv.vis _ (List.get_mem _ _ _)
    obtain ⟨c, hc, hcy, hclen⟩ := vis_step hyvis hpp
    obtain ⟨k, hk, hki, hke⟩ := mem_take_get (hinv.before i hi c hc)
    by_cases hcj : c = V.get ⟨j, hj⟩
    · have hfin : (⟨k, hk⟩ : Fin V.length) = ⟨j, hj⟩ :=
        (List.Nodup.get_inj_iff hinv.nodup).mp (by rw [hke, hcj])
      have : k = j := by
        have := congrArg Fin.val hfin
        simpa using this
      omega
    · have hppc : ProperPrefixOf c (V.get ⟨j, hj⟩) :=
        (properPrefixOf_iff _ _).mpr ⟨hcy, hcj⟩

      have hjk : j < k := ih k j hk hj (by rw [hke]; exact hppc)
        (by rw [hke]; omega)
      omega

theorem descendants_strictly_before {s : Settings} {t : FTree}
    {V pa : List Path} (hinv : OrderInv s t V pa) (i j : Nat)
    (hi : i < V.length) (hj : j < V.length)
    (hpp : ProperPrefixOf (V.get ⟨i, hi⟩) (V.get ⟨j, hj⟩)) : j < i :=
  descendants_before hinv (V.get ⟨j, hj⟩).length i j hi hj hpp (by omega)

/-- C10: for every settings and well-formed tree, `get_analysis_order` returns
a non-empty sequence without duplicates whose final element is the root itself
— including when the root matches the ignore rules (the fallback
`order.append(root_path)` of traverser.py:128-130 fires and the order is just
`[root]`). -/
theorem analysis_order_nonempty_nodup_root_last (s : Settings) (t : FTree)
    (hwf : t.wf = true) :
    getAnalysisOrder s t ≠ [] ∧ (getAnalysisOrder s t).Nodup ∧
      (getAnalysisOrder s t).getLast? = some [] := by
  by_cases hroot : shouldIgnoreDirectory s t.name = true
  · rw [getAnalysisOrder_ignored_root hroot]
    exact ⟨by simp, by simp, rfl⟩
  · have hroot' : shouldIgnoreDirectory s t.name = false := by
      simp at hroot
      exact hroot
    obtain ⟨pa, hinv, hcomp⟩ := getAnalysisOrder_visible_root hwf hroot'
    have hmem : ([] : Path) ∈ getAnalysisOrder s t := hcomp [] (vis_nil hroot')
    exact ⟨List.ne_nil_of_mem hmem, hinv.nodup, hinv.root_last hmem⟩

theorem analysis_order_nonempty_nodup_root_last_witness :
    (FTree.node "r" [] none none
        [FTree.node "src" [] none none [], FTree.node ".git" [] none none []]).wf
      = true ∧
    (getAnalysisOrder sDefault (FTree.node "r" [] none none
        [FTree.node "src" [] none none [], FTree.node ".git" [] none none []])
      ≠ [] ∧
    (getAnalysisOrder sDefault (FTree.node "r" [] none none
        [FTree.node "src" [] none none [], FTree.node ".git" [] none none []])).Nodup ∧
    (getAnalysisOrder sDefault (FTree.node "r" [] none none
        [FTree.node "src" [] none none [],
          FTree.node ".git" [] none none []])).getLast? = some []) :=
  ⟨by decide, analysis_order_nonempty_nodup_root_last sDefault _ (by decide)⟩

/-- C1 counterexample: with settings whose ignore list matches the root's own
name, `get_analysis_order` returns just `[root]` although the root has the
non-ignored subdirectory `a` — the subdirectory appears nowhere in the order,
so in particular not earlier than the root. -/
theorem analysis_order_children_first_cex :
    getAnalysisOrder sIgnRoot
        (FTree.node "r" [] none none [FTree.node "a" [] none none []])
      = [[]] ∧
    childDirs (FTree.node "r" [] none none [FTree.node "a" [] none none []]) []
      = [["a"]] ∧
    shouldIgnoreDirectory sIgnRoot "a" = false ∧
    (["a"] : Path) ∉ getAnalysisOrder sIgnRoot
        (FTree.node "r" [] none none [FTree.node "a" [] none none []]) := by
  decide

/-- C1 (amended): provided the root directory itself does not match the ignore
rules, every non-ignored subdirectory of the directory at position `i` of
`get_analysis_order` occurs at some earlier position `j < i`. -/
theorem analysis_order_children_first (s : Settings) (t : FTree)
    (hwf : t.wf = true) (hroot : shouldIgnoreDirectory s t.name = false)
    (i : Nat) (hi : i < (getAnalysisOrder s t).length) :
    ∀ c ∈ visChildPaths s t ((getAnalysisOrder s t).get ⟨i, hi⟩),
      ∃ j, ∃ hj : j < (getAnalysisOrder s t).length,
        j < i ∧ (getAnalysisOrder s t).get ⟨j, hj⟩ = c := by
  obtain ⟨pa, hinv, _⟩ := getAnalysisOrder_visible_root hwf hroot
  intro c hc
  obtain ⟨k, hk, hki, hke⟩ := mem_take_get (hinv.before i hi c hc)
  exact ⟨k, hk, hki, hke⟩

theorem analysis_order_children_first_witness :
    (FTree.node "r" [] none none [FTree.node "a" [] none none []]).wf = true ∧
    shouldIgnoreDirectory sDefault
      (FTree.node "r" [] none none [FTree.node "a" [] none none []]).name
      = false ∧
    ∃ hi : 1 < (getAnalysisOrder sDefault
        (FTree.node "r" [] none none [FTree.node "a" [] none none []])).length,
      ∀ c ∈ visChildPaths sDefault
          (FTree.node "r" [] none none [FTree.node "a" [] none none []])
          ((getAnalysisOrder sDefault
            (FTree.node "r" [] none none
              [FTree.node "a" [] none none []])).get ⟨1, hi⟩),
        ∃ j, ∃ hj : j < (getAnalysisOrder sDefault
            (FTree.node "r" [] none none
              [FTree.node "a" [] none none []])).length,
          j < 1 ∧ (getAnalysisOrder sDefault
            (FTree.node "r" [] none none
              [FTree.node "a" [] none none []])).get ⟨j, hj⟩ = c :=
  ⟨by decide, by decide, by decide,
    analysis_order_children_first sDefault _ (by decide) (by decide) 1
      (by decide)⟩

/-! ## The failure-isolation scenario (analyzer.py 79-94 / 158-197) -/

/-- Settings with caching off (nothing ignored beyond hidden entries). -/
def sNoCache : Settings :=
  ⟨[], [], [], true, 1048576, "claude", false, false, false⟩

/-- `root/{A, B}`: a root with exactly two child directories. -/
def tAB (fR fA fB : List FileMeta) : FTree :=
  FTree.node "r" fR none none
    [FTree.node "A" fA none none [], FTree.node "B" fB none none []]

/-- An external analyzer that succeeds on `A` and fails on everything else. -/
def aiAB : AIClient :=
  ⟨true, fun info => if info.name = "A" then some { kind := some "service" }
    else none⟩

theorem truthy_of_version {d : Digest} (h : d.analyzer_version = some "digin") :
    truthy d = true := by
  unfold truthy
  apply decide_eq_true
  intro he
  rw [he] at h
  exact Option.noConfusion h

/-- `_analyze_leaf_directory` always back-fills `name`, so its result is a
truthy (non-empty) dict. -/
theorem fillDefaults_truthy (info : DirInfo) (d : Digest) :
    truthy (fillDefaults info d) = true := by
  have hname : (fillDefaults info d).name.isSome = true := by
    simp only [fillDefaults]
    by_cases h : d.name.isNone = true
    · rw [if_pos h]
      by_cases h2 : (({ d with name := some info.name } : Digest)).path.isNone = true
      · rw [if_pos h2]
        rfl
      · rw [if_neg h2]
        rfl
    · rw [if_neg h]
      cases hd : d.name with
      | none => rw [hd] at h; simp at h
      | some v =>
        by_cases h2 : d.path.isNone = true
        · rw [if_pos h2]; simp [hd]
        · rw [if_neg h2]; simp [hd]
  unfold truthy
  apply decide_eq_true
  intro he
  rw [he] at hname
  simp at hname

theorem agg_version (s : Settings) (c : Nat) (dn dp : String)
    (ch : List Digest) (i : Option DirInfo) :
    (aggregateSummaries s c dn dp ch i).analyzer_version = some "digin" := rfl

theorem agg_truthy (s : Settings) (c : Nat) (dn dp : String)
    (ch : List Digest) (i : Option DirInfo) :
    truthy (aggregateSummaries s c dn dp ch i) = true :=
  truthy_of_version (agg_version s c dn dp ch i)

/-- C2 counterexample: in the `root/{A(ok), B(fails)}` scenario the run's
error counter is `0`, not `1` — `_analyze_leaf_directory` swallows the AI
failure and returns `None` without touching `stats["errors"]`, and `analyze`
only increments `errors` on a raised exception (analyzer.py 90-94).  The rest
of the claim holds (the run completes, two AI calls are made, two
directories produce digests, and the root digest is not the failure
digest). -/
theorem failure_isolation_cex :
    (match analyze sNoCache aiAB 0 (tAB [] [] []) with
      | .ok r => some (r.2.2.errors, r.2.2.ai_calls, r.2.2.directories_analyzed)
      | .error _ => none) = some (0, 2, 2) ∧
    (match analyze sNoCache aiAB 0 (tAB [] [] []) with
      | .ok r => some (decide (r.1 = createEmptyResult (tAB [] [] []) 0))
      | .error _ => none) = some false := by
  decide

/-- C2 (amended): for the tree `root/{A, B}` with the external analyzer
succeeding on `A` (with a truthy digest `dA`) and failing on `B`, the run
completes without raising, the root digest is aggregated from `A`'s
(default-filled) digest only — `B` contributes nothing to the child-digest
list — the error counter of the run is `0` (not `1` as claimed: leaf-analysis
failures are swallowed, not counted), both children cost one AI call each,
and the root digest is not the empty/failed result. -/
theorem failure_isolation (ai : AIClient) (clock : Nat) (dA : Digest)
    (hav : ai.available = true)
    (hA : ai.analyze (collectDirectoryInfo sNoCache (tAB [] [] []) ["A"]) = some dA)
    (htA : truthy dA = true)
    (hB : ai.analyze (collectDirectoryInfo sNoCache (tAB [] [] []) ["B"]) = none) :
    ∃ st : Stats,
      analyze sNoCache ai clock (tAB [] [] []) =
        .ok (aggregateSummaries sNoCache clock "r" "r"
              [fillDefaults (collectDirectoryInfo sNoCache (tAB [] [] []) ["A"]) dA]
              (some (collectDirectoryInfo sNoCache (tAB [] [] []) [])),
            tAB [] [] [], st) ∧
      st.errors = 0 ∧ st.ai_calls = 2 ∧ st.directories_analyzed = 2 ∧
      aggregateSummaries sNoCache clock "r" "r"
          [fillDefaults (collectDirectoryInfo sNoCache (tAB [] [] []) ["A"]) dA]
          (some (collectDirectoryInfo sNoCache (tAB [] [] []) []))
        ≠ createEmptyResult (tAB [] [] []) clock := by
  have hleafA : ∀ st : Stats, analyzeLeafDirectory ai
      (collectDirectoryInfo sNoCache (tAB [] [] []) ["A"]) st =
      (some (fillDefaults (collectDirectoryInfo sNoCache (tAB [] [] []) ["A"]) dA),
        { st with ai_calls := st.ai_calls + 1 }) := by
    intro st
    simp only [analyzeLeafDirectory, hA, htA, if_true]
  have hleafB : ∀ st : Stats, analyzeLeafDirectory ai
      (collectDirectoryInfo sNoCache (tAB [] [] []) ["B"]) st =
      (none, { st with ai_calls := st.ai_calls + 1 }) := by
    intro st
    simp only [analyzeLeafDirectory, hB]
  have hchA : ∀ m : DigestMap, getChildDigests sNoCache (tAB [] [] []) ["A"] m = [] :=
    fun _ => rfl
  have hchB : ∀ m : DigestMap, getChildDigests sNoCache (tAB [] [] []) ["B"] m = [] :=
    fun _ => rfl
  have hchR : ∀ d : Digest,
      getChildDigests sNoCache (tAB [] [] []) [] [(["A"], d)] = [d] :=
    fun _ => rfl
  have hsc : sNoCache.cache_enabled = false := rfl
  have horder : getAnalysisOrder sNoCache (tAB [] [] []) = [["A"], ["B"], []] := by
    decide
  have hdn : dirName (tAB [] [] []) [] = "r" := rfl
  have hps : pathStr (tAB [] [] []) [] = "r" := rfl
  have hfind : ∀ (d : Digest) (rest : DigestMap),
      DigestMap.find (([], d) :: rest) [] = some d := fun _ _ => rfl
  have key : analyze sNoCache ai clock (tAB [] [] []) = .ok
      (aggregateSummaries sNoCache clock "r" "r"
        [fillDefaults (collectDirectoryInfo sNoCache (tAB [] [] []) ["A"]) dA]
        (some (collectDirectoryInfo sNoCache (tAB [] [] []) [])),
       tAB [] [] [],
       ⟨2, 0, 3, 2, 0,
        (collectDirectoryInfo sNoCache (tAB [] [] []) ["A"]).total_files +
        (collectDirectoryInfo sNoCache (tAB [] [] []) ["B"]).total_files +
        (collectDirectoryInfo sNoCache (tAB [] [] []) []).total_files⟩) := by
    simp only [analyze, hav, Bool.not_true, horder, List.foldl_cons, List.foldl_nil,
      runStep, analyzeDirectory, analyzeDirectoryMiss, hsc, hchA, hchB, hchR,
      hleafA, hleafB, hdn, hps, hfind, fillDefaults_truthy, agg_truthy,
      List.isEmpty_nil, List.isEmpty_cons, Bool.and_false, Nat.zero_add,
      Bool.false_eq_true, if_false, if_true, Bool.true_eq_false]
  refine ⟨_, key, rfl, rfl, rfl, ?_⟩
  intro h
  have hv := congrArg Digest.analyzer_version h
  rw [agg_version] at hv
  have hv2 : (createEmptyResult (tAB [] [] []) clock).analyzer_version =
      some "unknown" := rfl
  rw [hv2] at hv
  simp at hv

theorem failure_isolation_witness :
    ∃ st : Stats,
      analyze sNoCache aiAB 0 (tAB [] [] []) =
        .ok (aggregateSummaries sNoCache 0 "r" "r"
              [fillDefaults (collectDirectoryInfo sNoCache (tAB [] [] []) ["A"])
                { kind := some "service" }]
              (some (collectDirectoryInfo sNoCache (tAB [] [] []) [])),
            tAB [] [] [], st) ∧
      st.errors = 0 ∧ st.ai_calls = 2 ∧ st.directories_analyzed = 2 ∧
      aggregateSummaries sNoCache 0 "r" "r"
          [fillDefaults (collectDirectoryInfo sNoCache (tAB [] [] []) ["A"])
            { kind := some "service" }]
          (some (collectDirectoryInfo sNoCache (tAB [] [] []) []))
        ≠ createEmptyResult (tAB [] [] []) 0 :=
  failure_isolation aiAB 0 { kind := some "service" } rfl (by decide) (by decide)
    (by decide)

/-! ## Frame lemmas: `updateAt` with an artifact-only replacement touches
nothing but the artifact slots of the node it addresses -/

theorem prefixOf_cons_iff (n : String) (q p : Path) :
    PrefixOf (n :: q) (n :: p) ↔ PrefixOf q p := by
  constructor
  · rintro ⟨r, hr⟩
    rw [List.cons_append, List.cons.injEq] at hr
    exact ⟨r, hr.2⟩
  · rintro ⟨r, hr⟩
    exact ⟨r, by rw [List.cons_append, hr]⟩

/-- Walking to a path that is not an ancestor-or-self of the replaced node
is unaffected (for replacements that keep the node's name and children). -/
theorem findSubtree_updateAt_off (f : FTree → FTree)
    (hn : ∀ u, (f u).name = u.name) (hs : ∀ u, (f u).subs = u.subs) :
    ∀ (p q : Path) (t : FTree), ¬ PrefixOf q p →
      findSubtree q (updateAt p f t) = findSubtree q t := by
  intro p
  induction p with
  | nil =>
    intro q t hq
    cases q with
    | nil => exact absurd ⟨[], rfl⟩ hq
    | cons m q' =>
      show findSubtree (m :: q') (f t) = _
      rw [findSubtree, findSubtree, hs t]
  | cons n p' ih =>
    intro q t hq
    cases t with
    | node nm fs da ha subs =>
      cases q with
      | nil => exact absurd ⟨n :: p', rfl⟩ hq
      | cons m q' =>
        have hq' : m = n → ¬ PrefixOf q' p' := by
          intro hmn hpp
          exact hq (by rw [hmn]; exact (prefixOf_cons_iff n q' p').mpr hpp)
        show findSubtree (m :: q') (.node nm fs da ha
          (subs.map (fun c => if c.name = n then updateAt p' f c else c))) = _
        rw [findSubtree, findSubtree]
        simp only [FTree.subs]
        induction subs with
        | nil => rfl
        | cons c rest ihs =>
          have hgname : (if c.name = n then updateAt p' f c else c).name
              = c.name := by
            by_cases hcn : c.name = n
            · rw [if_pos hcn]; exact updateAt_name f hn p' c
            · rw [if_neg hcn]
          by_cases hm : c.name = m
          · rw [List.map_cons,
              List.find?_cons_of_pos _ (by rw [hgname]; simp [hm]),
              List.find?_cons_of_pos _ (by simp [hm])]
            show findSubtree q' (if c.name = n then updateAt p' f c else c)
              = findSubtree q' c
            by_cases hcn : c.name = n
            · rw [if_pos hcn]
              exact ih q' c (hq' (by rw [← hm, hcn]))
            · rw [if_neg hcn]
          · rw [List.map_cons,
              List.find?_cons_of_neg _ (by rw [hgname]; simp [hm]),
              List.find?_cons_of_neg _ (by simp [hm])]
            exact ihs

/-- The shape of every node (name, files, child names) is unchanged by an
artifact-only replacement anywhere in the tree. -/
theorem findSubtree_updateAt_shape (f : FTree → FTree)
    (hn : ∀ u, (f u).name = u.name) (hfi : ∀ u, (f u).files = u.files)
    (hs : ∀ u, (f u).subs = u.subs) :
    ∀ (p q : Path) (t : FTree),
      (findSubtree q (updateAt p f t)).map
          (fun u => (u.name, u.files, u.subs.map FTree.name))
        = (findSubtree q t).map
          (fun u => (u.name, u.files, u.subs.map FTree.name)) := by
  intro p
  induction p with
  | nil =>
    intro q t
    cases q with
    | nil =>
      show (some (f t)).map _ = (some t).map _
      simp only [Option.map_some']
      rw [hn t, hfi t, hs t]
    | cons m q' =>
      rw [findSubtree_updateAt_off f hn hs [] (m :: q') t
        (fun ⟨r, hr⟩ => by simp at hr)]
  | cons n p' ih =>
    intro q t
    cases t with
    | node nm fs da ha subs =>
      cases q with
      | nil =>
        have hnames : (subs.map
            (fun c => if c.name = n then updateAt p' f c else c)).map FTree.name
            = subs.map FTree.name := by
          rw [List.map_map]
          apply List.map_congr_left
          intro c _
          show (if c.name = n then updateAt p' f c else c).name = c.name
          by_cases hcn : c.name = n
          · rw [if_pos hcn]; exact updateAt_name f hn p' c
          · rw [if_neg hcn]
        show some (nm, fs, (subs.map
            (fun c => if c.name = n then updateAt p' f c else c)).map FTree.name)
          = some (nm, fs, subs.map FTree.name)
        rw [hnames]
      | cons m q' =>
        show ((findSubtree (m :: q') (.node nm fs da ha
            (subs.map (fun c => if c.name = n then updateAt p' f c else c)))).map _)
          = _
        rw [findSubtree, findSubtree]
        simp only [FTree.subs]
        induction subs with
        | nil => rfl
        | cons c rest ihs =>
          have hgname : (if c.name = n then updateAt p' f c else c).name
              = c.name := by
            by_cases hcn : c.name = n
            · rw [if_pos hcn]; exact updateAt_name f hn p' c
            · rw [if_neg hcn]
          by_cases hm : c.name = m
          · rw [List.map_cons,
              List.find?_cons_of_pos _ (by rw [hgname]; simp [hm]),
              List.find?_cons_of_pos _ (by simp [hm])]
            show (findSubtree q' (if c.name = n then updateAt p' f c else c)).map _
              = (findSubtree q' c).map _
            by_cases hcn : c.name = n
            · rw [if_pos hcn]
              exact ih q' c
            · rw [if_neg hcn]
          · rw [List.map_cons,
              List.find?_cons_of_neg _ (by rw [hgname]; simp [hm]),
              List.find?_cons_of_neg _ (by simp [hm])]
            exact ihs

/-- Both artifact slots of every node other than the replaced one are
unchanged. -/
theorem findSubtree_updateAt_arts (f : FTree → FTree)
    (hn : ∀ u, (f u).name = u.name) (hs : ∀ u, (f u).subs = u.subs) :
    ∀ (p q : Path) (t : FTree), q ≠ p →
      (findSubtree q (updateAt p f t)).map (fun u => (u.dArt, u.hArt))
        = (findSubtree q t).map (fun u => (u.dArt, u.hArt)) := by
  intro p
  induction p with
  | nil =>
    intro q t hq
    cases q with
    | nil => exact absurd rfl hq
    | cons m q' =>
      rw [findSubtree_updateAt_off f hn hs [] (m :: q') t
        (fun ⟨r, hr⟩ => by simp at hr)]
  | cons n p' ih =>
    intro q t hq
    cases t with
    | node nm fs da ha subs =>
      cases q with
      | nil => rfl
      | cons m q' =>
        show ((findSubtree (m :: q') (.node nm fs da ha
            (subs.map (fun c => if c.name = n then updateAt p' f c else c)))).map _)
          = _
        rw [findSubtree, findSubtree]
        simp only [FTree.subs]
        induction subs with
        | nil => rfl
        | cons c rest ihs =>
          have hgname : (if c.name = n then updateAt p' f c else c).name
              = c.name := by
            by_cases hcn : c.name = n
            · rw [if_pos hcn]; exact updateAt_name f hn p' c
            · rw [if_neg hcn]
          by_cases hm : c.name = m
          · rw [List.map_cons,
              List.find?_cons_of_pos _ (by rw [hgname]; simp [hm]),
              List.find?_cons_of_pos _ (by simp [hm])]
            show (findSubtree q' (if c.name = n then updateAt p' f c else c)).map _
              = (findSubtree q' c).map _
            by_cases hcn : c.name = n
            · rw [if_pos hcn]
              refine ih q' c ?_
              intro hqpp
              exact hq (by rw [hqpp, ← hm, hcn])
            · rw [if_neg hcn]
          · rw [List.map_cons,
              List.find?_cons_of_neg _ (by rw [hgname]; simp [hm]),
              List.find?_cons_of_neg _ (by simp [hm])]
            exact ihs


/-! ## The traversal only reads the tree's shape, so artifact writes do not
change the analysis order -/

theorem scanLeaves_updateAt (f : FTree → FTree)
    (hn : ∀ u, (f u).name = u.name) (hs : ∀ u, (f u).subs = u.subs)
    (s' : Settings) :
    ∀ (p : Path) (t : FTree) (q0 : Path),
      scanLeaves s' (updateAt p f t) q0 = scanLeaves s' t q0 := by
  intro p
  induction p with
  | nil =>
    intro t q0
    cases t with
    | node nm fs da ha subs =>
      show scanLeaves s' (f (FTree.node nm fs da ha subs)) q0 = _
      cases hft : f (FTree.node nm fs da ha subs) with
      | node nm' fs' da' ha' subs' =>
        have h2 := hs (FTree.node nm fs da ha subs)
        rw [hft] at h2
        have hsubs : subs' = subs := h2
        rw [hsubs]
        rfl
  | cons n p' ih =>
    intro t q0
    cases t with
    | node nm fs da ha subs =>
      show scanLeaves s' (FTree.node nm fs da ha (subs.map
          (fun c => if c.name = n then updateAt p' f c else c))) q0 = _
      rw [scanLeaves, scanLeaves]
      have hgname : ∀ c : FTree,
          (if c.name = n then updateAt p' f c else c).name = c.name := by
        intro c
        by_cases hcn : c.name = n
        · rw [if_pos hcn]; exact updateAt_name f hn p' c
        · rw [if_neg hcn]
      have hfilter : ((subs.map
            (fun c => if c.name = n then updateAt p' f c else c)).filter
            (fun c => !shouldIgnoreDirectory s' c.name)).isEmpty
          = ((subs.filter (fun c => !shouldIgnoreDirectory s' c.name)).isEmpty) := by
        rw [List.filter_map]
        have hcong : subs.filter
            ((fun c => !shouldIgnoreDirectory s' c.name) ∘
              (fun c => if c.name = n then updateAt p' f c else c))
            = subs.filter (fun c => !shouldIgnoreDirectory s' c.name) := by
          apply List.filter_congr
          intro c _
          show (!shouldIgnoreDirectory s'
            ((if c.name = n then updateAt p' f c else c)).name) = _
          rw [hgname c]
        rw [hcong]
        cases subs.filter (fun c => !shouldIgnoreDirectory s' c.name) with
        | nil => rfl
        | cons a l => rfl
      rw [hfilter]
      have hlist : ∀ (l : List FTree),
          scanLeavesList s' (l.map
            (fun c => if c.name = n then updateAt p' f c else c)) q0
          = scanLeavesList s' l q0 := by
        intro l
        induction l with
        | nil => rfl
        | cons c rest ihl =>
          rw [List.map_cons, scanLeavesList, scanLeavesList, ihl]
          congr 1
          rw [hgname c]
          by_cases hig : shouldIgnoreDirectory s' c.name = true
          · rw [if_pos hig, if_pos hig]
          · rw [if_neg hig, if_neg hig]
            by_cases hcn : c.name = n
            · rw [if_pos hcn]
              exact ih c (q0 ++ [c.name])
            · rw [if_neg hcn]
      rw [hlist subs]

theorem dirPaths_updateAt (f : FTree → FTree)
    (hn : ∀ u, (f u).name = u.name) (hs : ∀ u, (f u).subs = u.subs) :
    ∀ (p : Path) (t : FTree), dirPaths (updateAt p f t) = dirPaths t := by
  intro p
  induction p with
  | nil =>
    intro t
    cases t with
    | node nm fs da ha subs =>
      show dirPaths (f (FTree.node nm fs da ha subs)) = _
      cases hft : f (FTree.node nm fs da ha subs) with
      | node nm' fs' da' ha' subs' =>
        have h2 := hs (FTree.node nm fs da ha subs)
        rw [hft] at h2
        have hsubs : subs' = subs := h2
        rw [hsubs]
        rfl
  | cons n p' ih =>
    intro t
    cases t with
    | node nm fs da ha subs =>
      show dirPaths (FTree.node nm fs da ha (subs.map
          (fun c => if c.name = n then updateAt p' f c else c))) = _
      rw [dirPaths, dirPaths]
      congr 1
      induction subs with
      | nil => rfl
      | cons c rest ihl =>
        rw [List.map_cons, dirPathsList, dirPathsList, ihl]
        congr 1
        have hgname : (if c.name = n then updateAt p' f c else c).name
            = c.name := by
          by_cases hcn : c.name = n
          · rw [if_pos hcn]; exact updateAt_name f hn p' c
          · rw [if_neg hcn]
        rw [hgname]
        by_cases hcn : c.name = n
        · rw [if_pos hcn, ih c]
        · rw [if_neg hcn]

theorem childDirs_updateAt (f : FTree → FTree)
    (hn : ∀ u, (f u).name = u.name) (hfi : ∀ u, (f u).files = u.files)
    (hs : ∀ u, (f u).subs = u.subs) (p : Path) (t : FTree) (P : Path) :
    childDirs (updateAt p f t) P = childDirs t P := by
  have hsh := findSubtree_updateAt_shape f hn hfi hs p P t
  unfold childDirs
  cases h1 : findSubtree P (updateAt p f t) with
  | none =>
    cases h2 : findSubtree P t with
    | none => rfl
    | some u => rw [h1, h2] at hsh; exact Option.noConfusion hsh
  | some u' =>
    cases h2 : findSubtree P t with
    | none => rw [h1, h2] at hsh; exact Option.noConfusion hsh
    | some u =>
      rw [h1, h2] at hsh
      simp only [Option.map_some'] at hsh
      have hnames : u'.subs.map FTree.name = u.subs.map FTree.name :=
        congrArg (fun x => x.2.2) (Option.some.inj hsh)
      show u'.subs.map (fun d => P ++ [d.name])
        = u.subs.map (fun d => P ++ [d.name])
      have hmm : ∀ (l : List FTree), l.map (fun d => P ++ [d.name])
          = (l.map FTree.name).map (fun nm => P ++ [nm]) := by
        intro l
        rw [List.map_map]
        rfl
      rw [hmm u'.subs, hmm u.subs, hnames]

theorem allChildrenProcessed_updateAt (f : FTree → FTree)
    (hn : ∀ u, (f u).name = u.name) (hfi : ∀ u, (f u).files = u.files)
    (hs : ∀ u, (f u).subs = u.subs) (s' : Settings) (p : Path) (t : FTree)
    (P : Path) (proc : List Path) :
    allChildrenProcessed s' (updateAt p f t) P proc
      = allChildrenProcessed s' t P proc := by
  unfold allChildrenProcessed
  rw [childDirs_updateAt f hn hfi hs p t P]
  simp only [dirName, updateAt_name f hn]

theorem nextLevelStep_updateAt (f : FTree → FTree)
    (hn : ∀ u, (f u).name = u.name) (hfi : ∀ u, (f u).files = u.files)
    (hs : ∀ u, (f u).subs = u.subs) (s' : Settings) (p : Path) (t : FTree) :
    nextLevelStep s' (updateAt p f t) = nextLevelStep s' t := by
  funext acc d
  unfold nextLevelStep
  simp only [dirName, updateAt_name f hn,
    allChildrenProcessed_updateAt f hn hfi hs s' p t]

theorem nextLevelParents_updateAt (f : FTree → FTree)
    (hn : ∀ u, (f u).name = u.name) (hfi : ∀ u, (f u).files = u.files)
    (hs : ∀ u, (f u).subs = u.subs) (s' : Settings) (p : Path) (t : FTree)
    (cur proc : List Path) :
    nextLevelParents s' (updateAt p f t) cur proc
      = nextLevelParents s' t cur proc := by
  unfold nextLevelParents
  rw [nextLevelStep_updateAt f hn hfi hs s' p t]

theorem analysisLoop_updateAt (f : FTree → FTree)
    (hn : ∀ u, (f u).name = u.name) (hfi : ∀ u, (f u).files = u.files)
    (hs : ∀ u, (f u).subs = u.subs) (s' : Settings) (p : Path) (t : FTree) :
    ∀ (fuel : Nat) (order proc cur : List Path),
      analysisLoop s' (updateAt p f t) fuel order proc cur
        = analysisLoop s' t fuel order proc cur := by
  intro fuel
  induction fuel with
  | zero => intro order proc cur; rfl
  | succ k ih =>
    intro order proc cur
    rw [analysisLoop, analysisLoop,
      nextLevelParents_updateAt f hn hfi hs s' p t cur proc]
    by_cases hc : cur.isEmpty = true
    · rw [if_pos hc, if_pos hc]
    · rw [if_neg hc, if_neg hc, ih]

theorem getAnalysisOrder_updateAt (f : FTree → FTree)
    (hn : ∀ u, (f u).name = u.name) (hfi : ∀ u, (f u).files = u.files)
    (hs : ∀ u, (f u).subs = u.subs) (s' : Settings) (p : Path) (t : FTree) :
    getAnalysisOrder s' (updateAt p f t) = getAnalysisOrder s' t := by
  have hleaves : findLeafDirectories s' (updateAt p f t)
      = findLeafDirectories s' t := by
    unfold findLeafDirectories
    rw [updateAt_name f hn, scanLeaves_updateAt f hn hs s' p t []]
  have hcount : countDirs (updateAt p f t) = countDirs t := by
    unfold countDirs
    rw [dirPaths_updateAt f hn hs p t]
  simp only [getAnalysisOrder, hleaves, hcount,
    analysisLoop_updateAt f hn hfi hs s' p t]

/-! ## `save_digest` frame lemmas -/

theorem setDArt_files (a : Option DigestArtifact) (u : FTree) :
    (setDArt a u).files = u.files := by cases u; rfl

theorem setDArt_subs (a : Option DigestArtifact) (u : FTree) :
    (setDArt a u).subs = u.subs := by cases u; rfl

theorem setHArt_files (a : Option HashArtifact) (u : FTree) :
    (setHArt a u).files = u.files := by cases u; rfl

theorem setHArt_subs (a : Option HashArtifact) (u : FTree) :
    (setHArt a u).subs = u.subs := by cases u; rfl

theorem cache_off_eq (b : Bool) (hb : ¬ b = true) : b = false := by
  cases b
  · rfl
  · exact absurd rfl hb

theorem saveDigest_cache_off (s : Settings) (p : Path) (d : Digest) (t : FTree)
    (hc : s.cache_enabled = false) : saveDigest s p d t = t := by
  unfold saveDigest
  rw [hc]
  rfl

theorem saveDigest_findSubtree_off (s : Settings) (p : Path) (d : Digest)
    (t : FTree) (q : Path) (hq : ¬ PrefixOf q p) :
    findSubtree q (saveDigest s p d t) = findSubtree q t := by
  by_cases hc : s.cache_enabled = true
  · unfold saveDigest
    simp only [hc, Bool.not_true, if_neg Bool.false_ne_true]
    rw [findSubtree_updateAt_off _ (setHArt_name _) (setHArt_subs _) p q _ hq,
      findSubtree_updateAt_off _ (setDArt_name _) (setDArt_subs _) p q t hq]
  · rw [saveDigest_cache_off s p d t (cache_off_eq _ hc)]

theorem saveDigest_arts_off (s : Settings) (p : Path) (d : Digest) (t : FTree)
    (q : Path) (hq : q ≠ p) :
    (findSubtree q (saveDigest s p d t)).map (fun u => (u.dArt, u.hArt))
      = (findSubtree q t).map (fun u => (u.dArt, u.hArt)) := by
  by_cases hc : s.cache_enabled = true
  · unfold saveDigest
    simp only [hc, Bool.not_true, if_neg Bool.false_ne_true]
    rw [findSubtree_updateAt_arts _ (setHArt_name _) (setHArt_subs _) p q _ hq,
      findSubtree_updateAt_arts _ (setDArt_name _) (setDArt_subs _) p q t hq]
  · rw [saveDigest_cache_off s p d t (cache_off_eq _ hc)]

theorem saveDigest_shape (s : Settings) (p : Path) (d : Digest) (t : FTree)
    (q : Path) :
    (findSubtree q (saveDigest s p d t)).map
        (fun u => (u.name, u.files, u.subs.map FTree.name))
      = (findSubtree q t).map
        (fun u => (u.name, u.files, u.subs.map FTree.name)) := by
  by_cases hc : s.cache_enabled = true
  · unfold saveDigest
    simp only [hc, Bool.not_true, if_neg Bool.false_ne_true]
    rw [findSubtree_updateAt_shape _ (setHArt_name _) (setHArt_files _)
        (setHArt_subs _) p q,
      findSubtree_updateAt_shape _ (setDArt_name _) (setDArt_files _)
        (setDArt_subs _) p q t]
  · rw [saveDigest_cache_off s p d t (cache_off_eq _ hc)]

theorem saveDigest_isSome (s : Settings) (p : Path) (d : Digest) (t : FTree)
    (q : Path) :
    (findSubtree q (saveDigest s p d t)).isSome = (findSubtree q t).isSome := by
  have h := saveDigest_shape s p d t q
  have hmap : ∀ (o : Option FTree),
      (o.map (fun u => (u.name, u.files, u.subs.map FTree.name))).isSome
        = o.isSome := by
    intro o
    cases o
    · rfl
    · rfl
  rw [← hmap (findSubtree q (saveDigest s p d t)), h, hmap]

theorem saveDigest_order (s s' : Settings) (p : Path) (d : Digest) (t : FTree) :
    getAnalysisOrder s' (saveDigest s p d t) = getAnalysisOrder s' t := by
  by_cases hc : s.cache_enabled = true
  · unfold saveDigest
    simp only [hc, Bool.not_true, if_neg Bool.false_ne_true]
    rw [getAnalysisOrder_updateAt _ (setHArt_name _) (setHArt_files _)
        (setHArt_subs _) s' p,
      getAnalysisOrder_updateAt _ (setDArt_name _) (setDArt_files _)
        (setDArt_subs _) s' p t]
  · rw [saveDigest_cache_off s p d t (cache_off_eq _ hc)]

/-- The saved node: `save_digest` leaves the node at `p` with a readable
parsed digest artifact holding `d` and a readable stored fingerprint that is
exactly the fingerprint of the directory as it stands after the digest
write. -/
theorem saveDigest_self (s : Settings) (p : Path) (d : Digest) (t : FTree)
    (node : FTree) (hc : s.cache_enabled = true)
    (hp : findSubtree p t = some node) :
    findSubtree p (saveDigest s p d t) = some
      (setHArt (some ⟨true, calcDirectoryHash s
          (setDArt (some ⟨true, some d⟩) node)⟩)
        (setDArt (some ⟨true, some d⟩) node)) := by
  have hfp1 : findSubtree p (updateAt p (setDArt (some ⟨true, some d⟩)) t)
      = some (setDArt (some ⟨true, some d⟩) node) := by
    rw [findSubtree_updateAt_self _ (setDArt_name _), hp]; rfl
  have hfp2 : findSubtree p
      (updateAt p
        (setHArt (some ⟨true,
          calcDirectoryHash s (setDArt (some ⟨true, some d⟩) node)⟩))
        (updateAt p (setDArt (some ⟨true, some d⟩)) t))
      = some (setHArt
          (some ⟨true, calcDirectoryHash s (setDArt (some ⟨true, some d⟩) node)⟩)
          (setDArt (some ⟨true, some d⟩) node)) := by
    rw [findSubtree_updateAt_self _ (setHArt_name _), hfp1]; rfl
  unfold saveDigest
  simp only [hc, Bool.not_true, if_neg Bool.false_ne_true]
  rw [hfp1]
  exact hfp2

/-! ## Run 1: every directory is a miss, is analyzed, and is saved with a
fingerprint that verifies -/

theorem find_cons_self (p : Path) (d : Digest) (m : DigestMap) :
    DigestMap.find ((p, d) :: m) p = some d := by
  simp [DigestMap.find, List.lookup]

theorem find_cons_ne (p q : Path) (d : Digest) (m : DigestMap) (hqp : q ≠ p) :
    DigestMap.find ((p, d) :: m) q = DigestMap.find m q := by
  simp [DigestMap.find, List.lookup, beq_eq_false_iff_ne.mpr hqp]

/-- Invariant of `analyze`'s directory loop on a clean tree: `done` is the
prefix of the order processed so far.  Every processed directory carries a
readable digest artifact that parses to its in-run digest and a readable
fingerprint that matches its recomputed one; every other directory still has
no artifacts; no hits, no errors, one miss per directory. -/
structure Run1Inv (s : Settings) (t : FTree) (done : List Path)
    (fs : FTree) (m : DigestMap) (st : Stats) : Prop where
  order_eq : ∀ s' : Settings, getAnalysisOrder s' fs = getAnalysisOrder s' t
  some_eq : ∀ q, (findSubtree q fs).isSome = (findSubtree q t).isSome
  saved : ∀ q ∈ done, ∃ node d,
    findSubtree q fs = some node ∧
    DigestMap.find m q = some d ∧
    node.dArt = some ⟨true, some d⟩ ∧
    node.hArt = some ⟨true, calcDirectoryHash s node⟩ ∧
    truthy d = true
  clean : ∀ q node, q ∉ done → findSubtree q fs = some node →
    node.dArt = none ∧ node.hArt = none
  s_an : st.directories_analyzed = done.length
  s_hit : st.cache_hits = 0
  s_miss : st.cache_misses = done.length
  s_err : st.errors = 0

theorem run1_step (s : Settings) (ai : AIClient) (clock : Nat) (t : FTree)
    (hc : s.cache_enabled = true)
    (hai : ∀ info, ∃ d, ai.analyze info = some d ∧ truthy d = true)
    (done : List Path) (p : Path) (fs : FTree) (m : DigestMap) (st : Stats)
    (hinv : Run1Inv s t done fs m st)
    (hpnew : p ∉ done)
    (hnoanc : ∀ q ∈ done, ¬ ProperPrefixOf q p)
    (hex : (findSubtree p t).isSome = true) :
    Run1Inv s t (done ++ [p])
      (runStep s ai clock (fs, m, st) p).1
      (runStep s ai clock (fs, m, st) p).2.1
      (runStep s ai clock (fs, m, st) p).2.2 := by
  -- the node at `p` exists and is artifact-free
  have hsome : (findSubtree p fs).isSome = true := by
    rw [hinv.some_eq p]; exact hex
  obtain ⟨node, hfs⟩ : ∃ node, findSubtree p fs = some node := by
    cases hv : findSubtree p fs with
    | none => rw [hv] at hsome; exact Bool.noConfusion hsome
    | some u => exact ⟨u, rfl⟩
  have harts := hinv.clean p node hpnew hfs
  -- the cache lookup is a miss
  have hcd : getCachedDigest s fs p = .ok none := by
    unfold getCachedDigest
    rw [hc]
    simp only [Bool.not_true, if_neg Bool.false_ne_true]
    rw [hfs]
    show (match node.dArt, node.hArt with
      | some da, some ha =>
        if !ha.readable then Except.error PyError.permissionError
        else if ha.stored ≠ calcDirectoryHash s node then .ok none
        else if !da.readable then .error .permissionError
        else match da.parsed with
          | none => .error .jsonDecodeError
          | some d => .ok (some d)
      | _, _ => .ok none) = .ok none
    rw [harts.1, harts.2]
  have hdir : analyzeDirectory s ai clock p fs m st
      = analyzeDirectoryMiss s ai clock p fs m st := by
    unfold analyzeDirectory
    rw [if_pos hc, hcd]
  -- the miss path returns a truthy digest and saves it
  obtain ⟨d, stA, b, htd, hstep, han, hhit, hmiss, herr⟩ :
      ∃ d stA b, truthy d = true ∧
        analyzeDirectoryMiss s ai clock p fs m st
          = .ok ⟨some d, saveDigest s p d fs, stA, b⟩ ∧
        stA.directories_analyzed = st.directories_analyzed ∧
        stA.cache_hits = st.cache_hits ∧
        stA.cache_misses = st.cache_misses + 1 ∧
        stA.errors = st.errors := by
    by_cases hch : (getChildDigests s fs p m).isEmpty = true
    · obtain ⟨d0, hd0, htd0⟩ := hai (collectDirectoryInfo s fs p)
      refine ⟨fillDefaults (collectDirectoryInfo s fs p) d0,
        { st with
            cache_misses := st.cache_misses + 1,
            total_files := st.total_files + (collectDirectoryInfo s fs p).total_files,
            ai_calls := st.ai_calls + 1 }, true,
        fillDefaults_truthy _ _, ?_, rfl, rfl, rfl, rfl⟩
      simp only [analyzeDirectoryMiss, hch, if_true, analyzeLeafDirectory,
        hd0, htd0, fillDefaults_truthy, hc, Bool.and_self, if_true]
    · have hch' : (getChildDigests s fs p m).isEmpty = false :=
        cache_off_eq _ hch
      refine ⟨aggregateSummaries s clock (dirName fs p) (pathStr fs p)
          (getChildDigests s fs p m) (some (collectDirectoryInfo s fs p)),
        { st with
            cache_misses := st.cache_misses + 1,
            total_files := st.total_files + (collectDirectoryInfo s fs p).total_files },
        false,
        agg_truthy _ _ _ _ _ _, ?_, rfl, rfl, rfl, rfl⟩
      simp only [analyzeDirectoryMiss, hch', Bool.false_eq_true, if_false,
        agg_truthy, hc, Bool.and_self, if_true]
  -- the loop body records the digest
  have hrs : runStep s ai clock (fs, m, st) p
      = (saveDigest s p d fs, (p, d) :: m,
        { stA with directories_analyzed := stA.directories_analyzed + 1 }) := by
    simp only [runStep, hdir, hstep, htd, if_true]
  rw [hrs]
  -- re-establish the invariant
  refine ⟨?_, ?_, ?_, ?_, ?_, ?_, ?_, ?_⟩
  · intro s'
    rw [show (saveDigest s p d fs, (p, d) :: m,
        { stA with directories_analyzed := stA.directories_analyzed + 1 }).1
      = saveDigest s p d fs from rfl]
    rw [saveDigest_order s s' p d fs]
    exact hinv.order_eq s'
  · intro q
    rw [show (saveDigest s p d fs, (p, d) :: m,
        { stA with directories_analyzed := stA.directories_analyzed + 1 }).1
      = saveDigest s p d fs from rfl]
    rw [saveDigest_isSome s p d fs q]
    exact hinv.some_eq q
  · intro q hq
    rcases List.mem_append.mp hq with hq1 | hq2
    · obtain ⟨nq, dq, hnq, hdq, hda, hha, htq⟩ := hinv.saved q hq1
      have hqp : q ≠ p := fun he => hpnew (he ▸ hq1)
      have hnp : ¬ PrefixOf q p := by
        intro hP
        exact hnoanc q hq1 ((properPrefixOf_iff q p).mpr ⟨hP, hqp⟩)
      refine ⟨nq, dq, ?_, ?_, hda, hha, htq⟩
      · show findSubtree q (saveDigest s p d fs) = some nq
        rw [saveDigest_findSubtree_off s p d fs q hnp]
        exact hnq
      · show DigestMap.find ((p, d) :: m) q = some dq
        rw [find_cons_ne p q d m hqp]
        exact hdq
    · have hqp : q = p := by
        cases hq2 with
        | head => rfl
        | tail _ h => exact absurd h (List.not_mem_nil q)
      subst hqp
      refine ⟨setHArt (some ⟨true, calcDirectoryHash s
            (setDArt (some ⟨true, some d⟩) node)⟩)
          (setDArt (some ⟨true, some d⟩) node), d,
        saveDigest_self s q d fs node hc hfs, find_cons_self q d m, ?_, ?_, htd⟩
      · rw [setHArt_dArt, setDArt_dArt]
      · rw [setHArt_hArt, calc_setHArt, calc_setDArt]
  · intro q nq hq hnq
    have hqp : q ≠ p := fun he =>
      hq (List.mem_append.mpr (Or.inr (he ▸ List.mem_cons_self p [])))
    have hqd : q ∉ done := fun he => hq (List.mem_append.mpr (Or.inl he))
    have hmapeq := saveDigest_arts_off s p d fs q hqp
    have hnq' : findSubtree q (saveDigest s p d fs) = some nq := hnq
    rw [hnq'] at hmapeq
    have hsq : (findSubtree q fs).isSome = true := by
      rw [← saveDigest_isSome s p d fs q, hnq']
      rfl
    obtain ⟨n0, hn0⟩ : ∃ n0, findSubtree q fs = some n0 := by
      cases hv : findSubtree q fs with
      | none => rw [hv] at hsq; exact Bool.noConfusion hsq
      | some u => exact ⟨u, rfl⟩
    rw [hn0] at hmapeq
    simp only [Option.map_some'] at hmapeq
    have h0 := hinv.clean q n0 hqd hn0
    have hpair := Option.some.inj hmapeq
    constructor
    · rw [show nq.dArt = (nq.dArt, nq.hArt).1 from rfl, hpair, h0.1]
    · rw [show nq.hArt = (nq.dArt, nq.hArt).2 from rfl, hpair, h0.2]
  · show stA.directories_analyzed + 1 = (done ++ [p]).length
    rw [han, hinv.s_an, List.length_append, List.length_singleton]
  · show stA.cache_hits = 0
    rw [hhit, hinv.s_hit]
  · show stA.cache_misses = (done ++ [p]).length
    rw [hmiss, hinv.s_miss, List.length_append, List.length_singleton]
  · show stA.errors = 0
    rw [herr, hinv.s_err]

/-- Forward-looking well-ordering of the remaining work list: no element
repeats later and no element is a proper ancestor of a later one. -/
def OrderOK : List Path → Prop
  | [] => True
  | p :: rest => p ∉ rest ∧ (∀ r ∈ rest, ¬ ProperPrefixOf p r) ∧ OrderOK rest

theorem orderOK_of_indexed :
    ∀ (V : List Path), V.Nodup →
      (∀ (i j : Nat) (hi : i < V.length) (hj : j < V.length), i < j →
        ¬ ProperPrefixOf (V.get ⟨i, hi⟩) (V.get ⟨j, hj⟩)) →
      OrderOK V := by
  intro V
  induction V with
  | nil => intro _ _; trivial
  | cons p rest ih =>
    intro hnd hidx
    refine ⟨(List.nodup_cons.mp hnd).1, ?_, ih (List.nodup_cons.mp hnd).2 ?_⟩
    · intro r hr
      obtain ⟨⟨k, hk⟩, hke⟩ := List.get_of_mem hr
      have h := hidx 0 (k + 1) (by simp) (by simp; omega) (by omega)
      have hg0 : (p :: rest).get ⟨0, by simp⟩ = p := rfl
      have hgk : (p :: rest).get ⟨k + 1, by simp; omega⟩ = rest.get ⟨k, hk⟩ := rfl
      rw [hg0, hgk, hke] at h
      exact h
    · intro i j hi hj hij
      have h := hidx (i + 1) (j + 1) (by simp; omega) (by simp; omega) (by omega)
      have hgi : (p :: rest).get ⟨i + 1, by simp; omega⟩ = rest.get ⟨i, hi⟩ := rfl
      have hgj : (p :: rest).get ⟨j + 1, by simp; omega⟩ = rest.get ⟨j, hj⟩ := rfl
      rw [hgi, hgj] at h
      exact h

theorem run1_fold (s : Settings) (ai : AIClient) (clock : Nat) (t : FTree)
    (hc : s.cache_enabled = true)
    (hai : ∀ info, ∃ d, ai.analyze info = some d ∧ truthy d = true) :
    ∀ (todo done : List Path) (fs : FTree) (m : DigestMap) (st : Stats),
      Run1Inv s t done fs m st →
      (∀ r ∈ todo, (findSubtree r t).isSome = true) →
      (∀ q ∈ done, ∀ r ∈ todo, q ≠ r ∧ ¬ ProperPrefixOf q r) →
      OrderOK todo →
      Run1Inv s t (done ++ todo)
        (todo.foldl (runStep s ai clock) (fs, m, st)).1
        (todo.foldl (runStep s ai clock) (fs, m, st)).2.1
        (todo.foldl (runStep s ai clock) (fs, m, st)).2.2 := by
  intro todo
  induction todo with
  | nil =>
    intro done fs m st hinv _ _ _
    rw [List.append_nil]
    exact hinv
  | cons p rest ih =>
    intro done fs m st hinv hvis hsep hok
    have hpnew : p ∉ done := by
      intro hp
      exact (hsep p hp p (List.mem_cons_self p rest)).1 rfl
    have hnoanc : ∀ q ∈ done, ¬ ProperPrefixOf q p := fun q hq =>
      (hsep q hq p (List.mem_cons_self p rest)).2
    have hstep := run1_step s ai clock t hc hai done p fs m st hinv hpnew
      hnoanc (hvis p (List.mem_cons_self p rest))
    have hfoldl : (p :: rest).foldl (runStep s ai clock) (fs, m, st)
        = rest.foldl (runStep s ai clock) (runStep s ai clock (fs, m, st) p) := by
      rw [List.foldl_cons]
    rw [hfoldl]
    have happ : done ++ p :: rest = (done ++ [p]) ++ rest := by
      rw [List.append_cons]
    rw [happ]
    have hnext := ih (done ++ [p]) (runStep s ai clock (fs, m, st) p).1
      (runStep s ai clock (fs, m, st) p).2.1
      (runStep s ai clock (fs, m, st) p).2.2
      hstep
      (fun r hr => hvis r (List.mem_cons_of_mem p hr))
      (by
        intro q hq r hr
        rcases List.mem_append.mp hq with hq1 | hq2
        · exact hsep q hq1 r (List.mem_cons_of_mem p hr)
        · have hqp : q = p := by
            cases hq2 with
            | head => rfl
            | tail _ h => exact absurd h (List.not_mem_nil q)
          subst hqp
          exact ⟨fun he => hok.1 (he ▸ hr), hok.2.1 r hr⟩)
      hok.2.2
    exact hnext

/-! ## Run 2: with every directory saved and unchanged, every step is a
cache hit -/

theorem find_reverse_last (dig : Path → Digest) :
    ∀ (l : List Path) (m0 : DigestMap) (q : Path), l.getLast? = some q →
      DigestMap.find ((l.map (fun p => (p, dig p))).reverse ++ m0) q
        = some (dig q) := by
  intro l
  induction l with
  | nil => intro m0 q h; exact Option.noConfusion h
  | cons x rest ih =>
    intro m0 q h
    cases rest with
    | nil =>
      have hq : q = x := by
        have h2 : (some x : Option Path) = some q := h
        exact (Option.some.inj h2).symm
      subst hq
      exact find_cons_self q (dig q) m0
    | cons y rest' =>
      have h' : (y :: rest').getLast? = some q := by
        rw [← List.getLast?_cons_cons]
        exact h
      have hmr : ((x :: y :: rest').map (fun p => (p, dig p))).reverse ++ m0
          = ((y :: rest').map (fun p => (p, dig p))).reverse
            ++ ((x, dig x) :: m0) := by
        rw [List.map_cons, List.reverse_cons, List.append_assoc]
        rfl
      rw [hmr]
      exact ih ((x, dig x) :: m0) q h'

theorem run2_fold (s : Settings) (ai : AIClient) (clock : Nat) (fs : FTree)
    (dig : Path → Digest) (hc : s.cache_enabled = true) :
    ∀ (l : List Path) (m0 : DigestMap) (st0 : Stats),
      (∀ p ∈ l, getCachedDigest s fs p = .ok (some (dig p))
        ∧ truthy (dig p) = true) →
      ∃ st' : Stats,
        l.foldl (runStep s ai clock) (fs, m0, st0)
          = (fs, (l.map (fun p => (p, dig p))).reverse ++ m0, st') ∧
        st'.cache_hits = st0.cache_hits + l.length ∧
        st'.directories_analyzed = st0.directories_analyzed + l.length ∧
        st'.cache_misses = st0.cache_misses ∧
        st'.errors = st0.errors ∧
        st'.ai_calls = st0.ai_calls := by
  intro l
  induction l with
  | nil =>
    intro m0 st0 _
    exact ⟨st0, rfl, rfl, rfl, rfl, rfl, rfl⟩
  | cons p rest ih =>
    intro m0 st0 hall
    have h1 := (hall p (List.mem_cons_self p rest)).1
    have h2 := (hall p (List.mem_cons_self p rest)).2
    have hstep : runStep s ai clock (fs, m0, st0) p
        = (fs, (p, dig p) :: m0,
          { st0 with
              cache_hits := st0.cache_hits + 1
              directories_analyzed := st0.directories_analyzed + 1 }) := by
      simp only [runStep, analyzeDirectory, if_pos hc, h1, h2, if_true]
    obtain ⟨st', hfold, hh, ha, hm, he, hai2⟩ :=
      ih ((p, dig p) :: m0)
        ({ st0 with
            cache_hits := st0.cache_hits + 1
            directories_analyzed := st0.directories_analyzed + 1 })
        (fun r hr => hall r (List.mem_cons_of_mem p hr))
    refine ⟨st', ?_, ?_, ?_, ?_, ?_, ?_⟩
    · rw [List.foldl_cons, hstep, hfold]
      have hmr : ((p :: rest).map (fun r => (r, dig r))).reverse ++ m0
          = (rest.map (fun r => (r, dig r))).reverse ++ ((p, dig p) :: m0) := by
        rw [List.map_cons, List.reverse_cons, List.append_assoc]
        rfl
      rw [hmr]
    · rw [hh]
      show st0.cache_hits + 1 + rest.length = st0.cache_hits + (rest.length + 1)
      omega
    · rw [ha]
      show st0.directories_analyzed + 1 + rest.length
        = st0.directories_analyzed + (rest.length + 1)
      omega
    · rw [hm]
    · rw [he]
    · rw [hai2]

/-- A cache lookup on a directory whose artifacts were written by
`save_digest` and whose contents are unchanged is a hit. -/
theorem getCachedDigest_hit (s : Settings) (fs : FTree) (p : Path) (np : FTree)
    (dp : Digest) (hc : s.cache_enabled = true)
    (hnp : findSubtree p fs = some np)
    (hda : np.dArt = some ⟨true, some dp⟩)
    (hha : np.hArt = some ⟨true, calcDirectoryHash s np⟩) :
    getCachedDigest s fs p = .ok (some dp) := by
  unfold getCachedDigest
  rw [hc]
  simp only [Bool.not_true, if_neg Bool.false_ne_true]
  rw [hnp]
  show (match np.dArt, np.hArt with
    | some da, some ha =>
      if !ha.readable then Except.error PyError.permissionError
      else if ha.stored ≠ calcDirectoryHash s np then Except.ok none
      else if !da.readable then Except.error PyError.permissionError
      else match da.parsed with
        | none => Except.error PyError.jsonDecodeError
        | some d => Except.ok (some d)
    | _, _ => Except.ok none) = Except.ok (some dp)
  rw [hda, hha]
  show (if calcDirectoryHash s np ≠ calcDirectoryHash s np then Except.ok none
    else Except.ok (some dp)) = Except.ok (some dp)
  rw [if_neg (fun h => h rfl)]

/-- **C5** (confirmed, under the stated environment assumptions).  Starting
from a tree with no cache artifacts, with caching enabled, the provider
available, and an external analyzer that always returns a truthy digest:
the first `analyze` misses and analyzes every directory of the order and
saves each digest; a second `analyze` over the resulting file system (no
changes in between) returns the identical root digest without calling the
AI at all, and its hit count equals the first run's
`directories_analyzed` (= the number of directories in the order). -/
theorem pipeline_idempotent (s : Settings) (ai : AIClient) (c1 c2 : Nat)
    (t : FTree) (hwf : t.wf = true)
    (hroot : shouldIgnoreDirectory s t.name = false)
    (hc : s.cache_enabled = true) (hav : ai.available = true)
    (hai : ∀ info, ∃ d, ai.analyze info = some d ∧ truthy d = true)
    (hclean : ∀ q node, findSubtree q t = some node →
      node.dArt = none ∧ node.hArt = none) :
    ∃ d1 fs1 st1 d2 fs2 st2,
      analyze s ai c1 t = .ok (d1, fs1, st1) ∧
      analyze s ai c2 fs1 = .ok (d2, fs2, st2) ∧
      d2 = d1 ∧ fs2 = fs1 ∧
      st1.directories_analyzed = (getAnalysisOrder s t).length ∧
      st2.cache_hits = st1.directories_analyzed ∧
      st1.cache_hits = 0 ∧ st2.cache_misses = 0 ∧
      st1.errors = 0 ∧ st2.errors = 0 ∧ st2.ai_calls = 0 := by
  obtain ⟨pa, hinv, hcomp⟩ := getAnalysisOrder_visible_root hwf hroot
  have hmemroot : ([] : Path) ∈ getAnalysisOrder s t := hcomp [] (vis_nil hroot)
  have hlast : (getAnalysisOrder s t).getLast? = some [] :=
    hinv.root_last hmemroot
  have hOK : OrderOK (getAnalysisOrder s t) :=
    orderOK_of_indexed _ hinv.nodup (by
      intro i j hi hj hij hpp
      have hlt := descendants_strictly_before hinv i j hi hj hpp
      omega)
  have hvisI : ∀ r ∈ getAnalysisOrder s t, (findSubtree r t).isSome = true :=
    fun r hr => (hinv.vis r hr).1
  have hinit : Run1Inv s t [] t [] {} :=
    ⟨fun _ => rfl, fun _ => rfl,
     fun q hq => absurd hq (List.not_mem_nil q),
     fun q n _ h => hclean q n h, rfl, rfl, rfl, rfl⟩
  have hrun1 := run1_fold s ai c1 t hc hai (getAnalysisOrder s t) [] t [] {}
    hinit hvisI (fun q hq => absurd hq (List.not_mem_nil q)) hOK
  rw [List.nil_append] at hrun1
  obtain ⟨node1, d1, hfs1, hm1, _, _, _⟩ := hrun1.saved [] hmemroot
  have hne : (getAnalysisOrder s t).isEmpty = false := by
    cases ho : getAnalysisOrder s t with
    | nil => rw [ho] at hmemroot; exact absurd hmemroot (List.not_mem_nil _)
    | cons a l => rfl
  have hana1 : analyze s ai c1 t
      = .ok (d1,
        ((getAnalysisOrder s t).foldl (runStep s ai c1) (t, [], {})).1,
        ((getAnalysisOrder s t).foldl (runStep s ai c1) (t, [], {})).2.2) := by
    simp only [analyze, hav, Bool.not_true, Bool.false_eq_true, if_false, hne,
      hm1]
  have horder2 : getAnalysisOrder s
      ((getAnalysisOrder s t).foldl (runStep s ai c1) (t, [], {})).1
      = getAnalysisOrder s t := hrun1.order_eq s
  have hall : ∀ p ∈ getAnalysisOrder s t,
      getCachedDigest s
          ((getAnalysisOrder s t).foldl (runStep s ai c1) (t, [], {})).1 p
        = .ok (some ((DigestMap.find
            ((getAnalysisOrder s t).foldl (runStep s ai c1) (t, [], {})).2.1
            p).getD {}))
      ∧ truthy ((DigestMap.find
            ((getAnalysisOrder s t).foldl (runStep s ai c1) (t, [], {})).2.1
            p).getD {}) = true := by
    intro p hp
    obtain ⟨np, dp, hnp, hdp, hda, hha, htp⟩ := hrun1.saved p hp
    rw [hdp]
    exact ⟨getCachedDigest_hit s _ p np dp hc hnp hda hha, htp⟩
  obtain ⟨st2, hfold2, hh2, hd2, hmiss2, herr2, hai2⟩ :=
    run2_fold s ai c2
      ((getAnalysisOrder s t).foldl (runStep s ai c1) (t, [], {})).1
      (fun p => (DigestMap.find
        ((getAnalysisOrder s t).foldl (runStep s ai c1) (t, [], {})).2.1
        p).getD {})
      hc (getAnalysisOrder s t) [] {} hall
  have hfind2 := find_reverse_last
    (fun p => (DigestMap.find
      ((getAnalysisOrder s t).foldl (runStep s ai c1) (t, [], {})).2.1
      p).getD {})
    (getAnalysisOrder s t) [] [] hlast
  have hdig : ((DigestMap.find
      ((getAnalysisOrder s t).foldl (runStep s ai c1) (t, [], {})).2.1
      ([] : Path)).getD {}) = d1 := by
    rw [hm1]
    rfl
  have hana2 : analyze s ai c2
      ((getAnalysisOrder s t).foldl (runStep s ai c1) (t, [], {})).1
      = .ok (d1,
        ((getAnalysisOrder s t).foldl (runStep s ai c1) (t, [], {})).1,
        st2) := by
    simp only [analyze, hav, Bool.not_true, Bool.false_eq_true, if_false,
      horder2, hne, hfold2, hfind2, hdig]
  refine ⟨d1, _, _, d1, _, st2, hana1, hana2, rfl, rfl, ?_, ?_, ?_, ?_, ?_, ?_, ?_⟩
  · exact hrun1.s_an
  · rw [hh2, hrun1.s_an]
    show 0 + (getAnalysisOrder s t).length = (getAnalysisOrder s t).length
    omega
  · exact hrun1.s_hit
  · exact hmiss2
  · exact hrun1.s_err
  · exact herr2
  · exact hai2

/-- An external analyzer that always returns the same truthy digest. -/
def aiTotal : AIClient := ⟨true, fun _ => some { kind := some "service" }⟩

mutual

/-- No node of the tree carries a cache artifact. -/
def artsClean : FTree → Bool
  | .node _ _ da ha subs => da.isNone && ha.isNone && artsCleanList subs

def artsCleanList : List FTree → Bool
  | [] => true
  | c :: rest => artsClean c && artsCleanList rest

end

theorem artsCleanList_mem : ∀ (l : List FTree), artsCleanList l = true →
    ∀ c ∈ l, artsClean c = true := by
  intro l
  induction l with
  | nil => intro _ c hc; exact absurd hc (List.not_mem_nil c)
  | cons a rest ih =>
    intro h c hc
    rw [artsCleanList] at h
    have h2 := Bool.and_eq_true_iff.mp h
    cases hc with
    | head => exact h2.1
    | tail _ hcr => exact ih h2.2 c hcr

theorem artsClean_spec : ∀ (q : Path) (t : FTree), artsClean t = true →
    ∀ (node : FTree), findSubtree q t = some node →
      node.dArt = none ∧ node.hArt = none := by
  intro q
  induction q with
  | nil =>
    intro t h node hf
    have hf' : some t = some node := hf
    have hnode : node = t := (Option.some.inj hf').symm
    subst hnode
    cases node with
    | node nm fs da ha subs =>
      rw [artsClean] at h
      have h2 := Bool.and_eq_true_iff.mp h
      have h3 := Bool.and_eq_true_iff.mp h2.1
      exact ⟨Option.isNone_iff_eq_none.mp h3.1, Option.isNone_iff_eq_none.mp h3.2⟩
  | cons n q' ih =>
    intro t h node hf
    cases t with
    | node nm fs da ha subs =>
      rw [findSubtree] at hf
      simp only [FTree.subs] at hf
      cases hfind : subs.find? (fun c => c.name = n) with
      | none =>
        rw [hfind] at hf
        exact Option.noConfusion hf
      | some c =>
        rw [hfind] at hf
        have hcclean : artsClean c = true := by
          rw [artsClean] at h
          have h2 := Bool.and_eq_true_iff.mp h
          exact artsCleanList_mem subs h2.2 c (List.mem_of_find?_eq_some hfind)
        exact ih c hcclean node hf

theorem pipeline_idempotent_witness :
    ∃ d1 fs1 st1 d2 fs2 st2,
      analyze sDefault aiTotal 0 (FTree.node "r" [] none none
        [FTree.node "a" [] none none []]) = .ok (d1, fs1, st1) ∧
      analyze sDefault aiTotal 1 fs1 = .ok (d2, fs2, st2) ∧
      d2 = d1 ∧ fs2 = fs1 ∧
      st1.directories_analyzed = (getAnalysisOrder sDefault
        (FTree.node "r" [] none none
          [FTree.node "a" [] none none []])).length ∧
      st2.cache_hits = st1.directories_analyzed ∧
      st1.cache_hits = 0 ∧ st2.cache_misses = 0 ∧
      st1.errors = 0 ∧ st2.errors = 0 ∧ st2.ai_calls = 0 :=
  pipeline_idempotent sDefault aiTotal 0 1
    (FTree.node "r" [] none none [FTree.node "a" [] none none []])
    (by decide) (by decide) (by decide) rfl
    (fun info => ⟨{ kind := some "service" }, rfl, by decide⟩)
    (fun q node h => artsClean_spec q
      (FTree.node "r" [] none none [FTree.node "a" [] none none []])
      (by decide) node h)

end Digin
